import Mathlib

/-!
Shallow embedding of the patco-today-schedules pipeline.

Python strings are modelled as `List Char`; each Python function of
`src/lambda/ConvertPdfToTxt/lambda_function.py`,
`src/lambda/QueryScheduleAPI/lambda_function.py` and
`src/lambda/StoreDataInDynamoDB/lambda_function.py` that the claims touch is
translated to a Lean function of the same name (leading underscores dropped).
Python regular-expression scans are translated to explicit left-to-right
scanners with the same greedy/backtracking behaviour.
-/

set_option maxRecDepth 100000

namespace Patco

/-- Python strings as lists of characters. -/
abbrev Str := List Char

/-- The `CLOSED` sentinel token. -/
def closedTok : Str := "CLOSED".toList

/-- ASCII whitespace stripped by Python `str.strip()`. -/
def isPySpace (c : Char) : Bool :=
  c == ' ' || c == '\t' || c == '\n' || c == '\r' || c == '\x0b' || c == '\x0c'

/-- Python `str.strip()`. -/
def pyStrip (l : Str) : Str :=
  ((l.dropWhile isPySpace).reverse.dropWhile isPySpace).reverse

/-- Python `text.split('\n')`. -/
def splitLines (l : Str) : List Str := l.splitOn '\n'

/-- Python `line.split(',')`. -/
def splitCommas (l : Str) : List Str := l.splitOn ','

/-- Python `'\n'.join(lines)`. -/
def joinLines (ls : List Str) : Str := List.intercalate ['\n'] ls

/-- Python `','.join(cols)`. -/
def joinCommas (ls : List Str) : Str := List.intercalate [','] ls

/-- Python `str.lower()` (ASCII). -/
def pyLower (l : Str) : Str := l.map Char.toLower

/-- Digit accumulator for `pythonInt`: digits with single `_` separators
allowed between digits, as accepted by Python's `int()`. -/
def pyDigitsGo (acc : Nat) : Str → Option Nat
  | [] => some acc
  | c :: rest =>
    if c.isDigit then pyDigitsGo (acc * 10 + (c.toNat - 48)) rest
    else if c == '_' then
      match rest with
      | c2 :: rest2 =>
        if c2.isDigit then pyDigitsGo (acc * 10 + (c2.toNat - 48)) rest2 else none
      | [] => none
    else none

/-- Nonempty digit run (first character must be a digit). -/
def pyDigits (l : Str) : Option Nat :=
  match l with
  | [] => none
  | c :: _ => if c.isDigit then pyDigitsGo 0 l else none

/-- Python `int(s)` for base-10 string input: optional surrounding
whitespace, optional single sign, then digits (`_` group separators
allowed).  Returns `none` where Python raises `ValueError`. -/
def pythonInt (l : Str) : Option Int :=
  match pyStrip l with
  | [] => none
  | c :: rest =>
    if c == '+' then (pyDigits rest).map (fun n => (n : Int))
    else if c == '-' then (pyDigits rest).map (fun n => -(n : Int))
    else (pyDigits (c :: rest)).map (fun n => (n : Int))

/-- Full match of `^\d{1,2}:\d{2}$` (a bare time, no meridiem letter). -/
def isBareTime (l : Str) : Bool :=
  match l with
  | [a, c, m1, m2] => a.isDigit && c == ':' && m1.isDigit && m2.isDigit
  | [a, b, c, m1, m2] => a.isDigit && b.isDigit && c == ':' && m1.isDigit && m2.isDigit
  | _ => false

/-- Full match of `^\d{1,2}:\d{2}[AP]$` (a fully qualified time). -/
def isQualTime (l : Str) : Bool :=
  match l with
  | [a, c, m1, m2, x] =>
    a.isDigit && c == ':' && m1.isDigit && m2.isDigit && (x == 'A' || x == 'P')
  | [a, b, c, m1, m2, x] =>
    a.isDigit && b.isDigit && c == ':' && m1.isDigit && m2.isDigit && (x == 'A' || x == 'P')
  | _ => false

/-- Full match of `^\d{1,2}:\d{2}P$`. -/
def isPmTime (l : Str) : Bool :=
  match l with
  | [a, c, m1, m2, x] => a.isDigit && c == ':' && m1.isDigit && m2.isDigit && x == 'P'
  | [a, b, c, m1, m2, x] =>
    a.isDigit && b.isDigit && c == ':' && m1.isDigit && m2.isDigit && x == 'P'
  | _ => false

/-- Full match of `^\d{1,2}:\d{2}A$`. -/
def isAmTime (l : Str) : Bool :=
  match l with
  | [a, c, m1, m2, x] => a.isDigit && c == ':' && m1.isDigit && m2.isDigit && x == 'A'
  | [a, b, c, m1, m2, x] =>
    a.isDigit && b.isDigit && c == ':' && m1.isDigit && m2.isDigit && x == 'A'
  | _ => false

/-- Attempt to complete a time match after the hour digits `hh`:
expects `':'` then two digits then `A` or `P` at the head of the input.
Returns the full match and the remaining input. -/
def timeSuffixMatch (hh : Str) : Str → Option (Str × Str)
  | c :: m1 :: m2 :: x :: rest =>
    if c == ':' && m1.isDigit && m2.isDigit && (x == 'A' || x == 'P') then
      some (hh ++ c :: m1 :: m2 :: [x], rest)
    else none
  | _ => none

/-- Leftmost match of `\d{1,2}:\d{2}[AP]` at the head of the input, with
the greedy-then-backtrack behaviour of the Python regex engine on
`\d{1,2}`. -/
def timeMatch : Str → Option (Str × Str)
  | [] => none
  | c1 :: rest =>
    if c1.isDigit then
      match rest with
      | [] => none
      | c2 :: rest2 =>
        if c2.isDigit then
          match timeSuffixMatch [c1, c2] rest2 with
          | some r => some r
          | none => timeSuffixMatch [c1] rest
        else timeSuffixMatch [c1] rest
    else none

theorem timeSuffixMatch_length {hh l m r} (h : timeSuffixMatch hh l = some (m, r)) :
    r.length + 4 = l.length := by
  match l with
  | c :: m1 :: m2 :: x :: rest =>
    simp only [timeSuffixMatch] at h
    split at h
    · simp only [Option.some.injEq, Prod.mk.injEq] at h
      simp [← h.2]
    · exact absurd h (by simp)
  | [] => simp [timeSuffixMatch] at h
  | [a] => simp [timeSuffixMatch] at h
  | [a, b] => simp [timeSuffixMatch] at h
  | [a, b, c] => simp [timeSuffixMatch] at h

theorem timeMatch_length {l m r} (h : timeMatch l = some (m, r)) :
    r.length < l.length := by
  match l with
  | [] => simp [timeMatch] at h
  | c1 :: rest =>
    simp only [timeMatch] at h
    split at h
    · match rest with
      | [] => simp at h
      | c2 :: rest2 =>
        simp only at h
        split at h
        · revert h
          split
          · rename_i r' heq
            obtain ⟨m', r''⟩ := r'
            intro h
            cases h
            have := timeSuffixMatch_length heq
            simp only [List.length_cons] at this ⊢
            omega
          · intro h
            have := timeSuffixMatch_length h
            simp only [List.length_cons] at this ⊢
            omega
        · have := timeSuffixMatch_length h
          simp only [List.length_cons] at this ⊢
          omega
    · exact absurd h (by simp)

/-- Scanner for step 3, written with a fuel argument (the input length)
so that the recursion is structural and the kernel can evaluate it; every
scan step consumes at least one character, so the fallthrough case is
unreachable for fuel ≥ length. -/
def addCommasGo : Nat → Str → Str
  | fuel + 1, c :: cs =>
    match timeMatch (c :: cs) with
    | some (m, rest) => m ++ ',' :: addCommasGo fuel rest
    | none => c :: addCommasGo fuel cs
  | _, l => l

/-- Step 3 of `_process_text`:
`re.sub(r'(\d{1,2}:\d{2}[AP])', r'\1,', text)` — insert a comma after every
time pattern, scanning left to right with non-overlapping matches. -/
def addCommasAfterTimes (l : Str) : Str := addCommasGo l.length l

theorem addCommasGo_fuel_irrel :
    ∀ (fuel₁ fuel₂ : Nat) (l : Str), l.length ≤ fuel₁ → l.length ≤ fuel₂ →
      addCommasGo fuel₁ l = addCommasGo fuel₂ l := by
  intro fuel₁
  induction fuel₁ with
  | zero =>
    intro fuel₂ l h1 h2
    have : l = [] := List.length_eq_zero.mp (by omega)
    subst this
    cases fuel₂ <;> rfl
  | succ f ih =>
    intro fuel₂ l h1 h2
    match l with
    | [] => cases fuel₂ <;> rfl
    | c :: cs =>
      match fuel₂ with
      | 0 => simp at h2
      | f₂ + 1 =>
        cases hm : timeMatch (c :: cs) with
        | some r =>
          obtain ⟨m, rest⟩ := r
          have hlen := timeMatch_length hm
          simp only [List.length_cons] at h1 h2 hlen
          simp only [addCommasGo, hm]
          rw [ih f₂ rest (by omega) (by omega)]
        | none =>
          simp only [List.length_cons] at h1 h2
          simp only [addCommasGo, hm]
          rw [ih f₂ cs (by omega) (by omega)]

/-- Step 1 of `_process_text`: `text.replace("►", "")` then
`text.replace("à", "CLOSED,")`. -/
def replaceSpecialChars (l : Str) : Str :=
  (l.filter (fun c => !(c == '►'))).flatMap
    (fun c => if c == 'à' then closedTok ++ [','] else [c])

/-- Step 2 of `_process_text`: `text.replace(" ", "").replace("\t", "")`. -/
def removeWhitespace (l : Str) : Str :=
  l.filter (fun c => !(c == ' ' || c == '\t'))

/-- The character class of `re.sub(r'[0-9:,AP►à\n\r\tCLOSED]', '', line)`
in `_filter_valid_lines`. -/
def allowedFilterChar (c : Char) : Bool :=
  c.isDigit || c == ':' || c == ',' || c == 'A' || c == 'P' || c == '►' || c == 'à' ||
    c == '\n' || c == '\r' || c == '\t' ||
    c == 'C' || c == 'L' || c == 'O' || c == 'S' || c == 'E' || c == 'D'

/-- `re.search(r'[a-zA-Z]', ...)` character test. -/
def isAsciiLetter (c : Char) : Bool :=
  ('a' ≤ c && c ≤ 'z') || ('A' ≤ c && c ≤ 'Z')

/-- One line of `_filter_valid_lines`: blank lines are kept; a non-blank
line is kept iff no ASCII letter remains after deleting the characters of
the allow class. -/
def keepLine (l : Str) : Bool :=
  if pyStrip l == [] then true
  else !((l.filter (fun c => !allowedFilterChar c)).any isAsciiLetter)

/-- `_filter_valid_lines` of `ConvertPdfToTxt/lambda_function.py`. -/
def filter_valid_lines (l : Str) : Str :=
  joinLines ((splitLines l).filter keepLine)

/-- Scanner for `re.sub(r'([^,])CLOSED', r'\1,CLOSED', line)`:
left-to-right, non-overlapping matches of a non-comma character followed
by `CLOSED`.  Fueled (by the line length) for structural recursion; every
step consumes at least one character. -/
def fixClosedGo : Nat → Str → Str
  | fuel + 1, c :: cs =>
    if !(c == ',') && cs.take 6 == closedTok then
      c :: ',' :: (closedTok ++ fixClosedGo fuel (cs.drop 6))
    else c :: fixClosedGo fuel cs
  | _, l => l

/-- One line of `_fix_closed_formatting`. -/
def fixClosedLine (l : Str) : Str := fixClosedGo l.length l

theorem fixClosedGo_fuel_irrel :
    ∀ (fuel₁ fuel₂ : Nat) (l : Str), l.length ≤ fuel₁ → l.length ≤ fuel₂ →
      fixClosedGo fuel₁ l = fixClosedGo fuel₂ l := by
  intro fuel₁
  induction fuel₁ with
  | zero =>
    intro fuel₂ l h1 h2
    have : l = [] := List.length_eq_zero.mp (by omega)
    subst this
    cases fuel₂ <;> rfl
  | succ f ih =>
    intro fuel₂ l h1 h2
    match l with
    | [] => cases fuel₂ <;> rfl
    | c :: cs =>
      match fuel₂ with
      | 0 => simp at h2
      | f₂ + 1 =>
        simp only [fixClosedGo]
        split
        · have hdl : (cs.drop 6).length ≤ cs.length := by
            rw [List.length_drop]; omega
          simp only [List.length_cons] at h1 h2
          rw [ih f₂ (cs.drop 6) (by omega) (by omega)]
        · simp only [List.length_cons] at h1 h2
          rw [ih f₂ cs (by omega) (by omega)]

/-- `_fix_closed_formatting` of `ConvertPdfToTxt/lambda_function.py`. -/
def fix_closed_formatting (l : Str) : Str :=
  joinLines ((splitLines l).map fixClosedLine)

/-- `int(s.split(':')[0])` on a string guarded by one of the time
regexes (the `int` call cannot fail there; `0` is a dead default). -/
def hourOf (l : Str) : Int :=
  (pythonInt ((l.splitOn ':').headD [])).getD 0

/-- The candidate test of both scan loops in `_infer_am_pm_suffix`:
`col` (already stripped) is nonempty, not `CLOSED`, and matches
`^\d{1,2}:\d{2}[AP]$`. -/
def qualCandidate (s : Str) : Bool :=
  !(s == []) && !(s == closedTok) && isQualTime s

/-- Backward scan of `_infer_am_pm_suffix`: nearest stripped column
before position `i` that passes `qualCandidate`. -/
def findPrevQual (cols : List Str) (i : Nat) : Option Str :=
  ((cols.take i).reverse.map pyStrip).find? qualCandidate

/-- Forward scan of `_infer_am_pm_suffix`: nearest stripped column after
position `i` that passes `qualCandidate`. -/
def findNextQual (cols : List Str) (i : Nat) : Option Str :=
  ((cols.drop (i + 1)).map pyStrip).find? qualCandidate

/-- `_infer_am_pm_suffix` of `ConvertPdfToTxt/lambda_function.py`.
Always called with `cols.get i` a bare time (`^\d{1,2}:\d{2}$`). -/
def infer_am_pm_suffix (cols : List Str) (i : Nat) : Char :=
  let curHour := hourOf (pyStrip (cols.getD i []))
  match findPrevQual cols i with
  | some prev =>
    let prevSuffix := prev.getLast?.getD 'A'
    let prevHour := hourOf prev.dropLast
    if curHour ≥ prevHour ∨ prevHour - curHour ≤ 2 then prevSuffix
    else if prevSuffix = 'A' then 'P' else 'A'
  | none =>
    match findNextQual cols i with
    | some nxt =>
      let nextSuffix := nxt.getLast?.getD 'A'
      let nextHour := hourOf nxt.dropLast
      if curHour ≤ nextHour ∨ curHour - nextHour ≤ 2 then nextSuffix
      else if nextSuffix = 'P' then 'A' else 'P'
    | none => if curHour ≤ 11 then 'A' else 'P'

/-- The column loop of `_fix_missing_am_pm`: Python mutates `columns[i]`
in place while iterating, so later inferences see earlier fixes; the
fuel argument is the original column count (`set` preserves length). -/
def fixMissingGo : Nat → List Str → Nat → List Str
  | 0, cols, _ => cols
  | n + 1, cols, i =>
    let col := pyStrip (cols.getD i [])
    let cols' :=
      if col == [] || col == closedTok then cols
      else if isBareTime col then cols.set i (col ++ [infer_am_pm_suffix cols i])
      else cols
    fixMissingGo n cols' (i + 1)

/-- One line of `_fix_missing_am_pm`. -/
def fixMissingLine (l : Str) : Str :=
  if pyStrip l == [] then l
  else joinCommas (fixMissingGo (splitCommas l).length (splitCommas l) 0)

/-- `_fix_missing_am_pm` of `ConvertPdfToTxt/lambda_function.py`. -/
def fix_missing_am_pm (l : Str) : Str :=
  joinLines ((splitLines l).map fixMissingLine)

/-- The line loop of `_normalize_to_14_columns`, carrying the pending
column accumulator.  Note the single (not repeated) extraction of 14
columns per input line, exactly as in the source. -/
def norm14Go : List Str → List Str → List (List Str)
  | [], acc => if acc == [] then [] else [acc]
  | line :: rest, acc =>
    let s := pyStrip line
    if s == [] then norm14Go rest acc
    else
      let acc' := acc ++ (splitCommas s).filter (fun c => !(c == []))
      if 14 ≤ acc'.length then acc'.take 14 :: norm14Go rest (acc'.drop 14)
      else norm14Go rest acc'

/-- `_normalize_to_14_columns` of `ConvertPdfToTxt/lambda_function.py`. -/
def normalize_to_14_columns (l : Str) : Str :=
  joinLines ((norm14Go (splitLines l) []).map joinCommas)

/-- `_process_text` of `ConvertPdfToTxt/lambda_function.py`: the full
text-normalizer pipeline, steps 1-7 composed in source order. -/
def process_text (l : Str) : Str :=
  normalize_to_14_columns
    (fix_missing_am_pm
      (fix_closed_formatting
        (filter_valid_lines
          (addCommasAfterTimes
            (removeWhitespace
              (replaceSpecialChars l))))))

/-- Last non-empty, non-`CLOSED` column of a line (columns scanned in
reverse), stripped — as in `_split_westbound_eastbound`. -/
def lastNonClosedCol (cols : List Str) : Option Str :=
  (cols.reverse.map pyStrip).find? (fun s => !(s == []) && !(s == closedTok))

/-- First non-empty, non-`CLOSED` column of a line, stripped. -/
def firstNonClosedCol (cols : List Str) : Option Str :=
  ((cols.map pyStrip).find? (fun s => !(s == []) && !(s == closedTok)))

/-- The boundary test of `_split_westbound_eastbound` for a pair of
already-stripped non-blank adjacent lines. -/
def isSplitPair (cur nxt : Str) : Bool :=
  match lastNonClosedCol (splitCommas cur), firstNonClosedCol (splitCommas nxt) with
  | some lt, some ft => isPmTime lt && isAmTime ft
  | _, _ => false

/-- The scan loop of `_split_westbound_eastbound`: first index `i` with a
P→A transition between line `i` and line `i+1` (pairs with a blank member
are skipped); returns `i + 1`, the split position. -/
def findSplitIndexGo : List Str → Nat → Option Nat
  | l1 :: l2 :: rest, i =>
    if pyStrip l1 == [] || pyStrip l2 == [] then findSplitIndexGo (l2 :: rest) (i + 1)
    else if isSplitPair (pyStrip l1) (pyStrip l2) then some (i + 1)
    else findSplitIndexGo (l2 :: rest) (i + 1)
  | _, _ => none

/-- `_clean_empty_lines` of `ConvertPdfToTxt/lambda_function.py`. -/
def clean_empty_lines (ls : List Str) : List Str :=
  ((ls.dropWhile (fun l => pyStrip l == [])).reverse.dropWhile
    (fun l => pyStrip l == [])).reverse

/-- `_split_westbound_eastbound` of `ConvertPdfToTxt/lambda_function.py`. -/
def split_westbound_eastbound (text : Str) : Str × Str :=
  let lines := splitLines text
  match findSplitIndexGo lines 0 with
  | some k =>
    (joinLines (clean_empty_lines (lines.take k)),
     joinLines (clean_empty_lines (lines.drop k)))
  | none => (text, [])

/-- `_add_difference_flags` of `ConvertPdfToTxt/lambda_function.py`.
The baseline is the regular-schedule CSV text when the storage read
succeeds, `none` when it fails for any reason (the `except` path, which
returns the input unchanged). -/
def add_difference_flags (text : Str) (baseline : Option Str) : Str :=
  if pyStrip text == [] then text
  else
    match baseline with
    | none => text
    | some reg =>
      let regSet := ((splitLines reg).map pyStrip).filter (fun s => !(s == []))
      joinLines ((splitLines text).map (fun line =>
        if pyStrip line == [] then line
        else if pyStrip line ∈ regSet then line ++ (",false".toList)
        else line ++ (",true".toList)))

/-- Query direction. -/
inductive Direction where
  | westbound
  | eastbound
deriving DecidableEq, Repr

/-- One DynamoDB item written by `process_csv_to_dynamodb` in
`StoreDataInDynamoDB/lambda_function.py` (bookkeeping attributes
`segment_id` and `created_at` omitted; station indices stored as
numbers). -/
structure Segment where
  trip_id : Nat
  departure_time : Str
  arrival_time : Str
  source_station_index : Nat
  destination_station_index : Nat
  source_station_name : Str
  destination_station_name : Str
  is_valid : Bool
deriving DecidableEq, Repr

/-- One element of the `valid_trips` response list in
`QueryScheduleAPI/lambda_function.py`. -/
structure TripEntry where
  departure_time : Str
  arrival_time : Str
  source_station : Str
  destination_station : Str
  trip_id : Nat
  direction : Direction
deriving DecidableEq, Repr

/-- `PATCO_STATIONS_WESTBOUND` of `StoreDataInDynamoDB/lambda_function.py`. -/
def PATCO_STATIONS_WESTBOUND : List Str :=
  ["15th-16th & Locust", "12th-13th & Locust", "9th-10th & Locust", "8th & Market",
   "City Hall", "Broadway", "Franklin Square", "Collingswood", "Westmont",
   "Haddonfield", "Woodcrest", "Ashland", "Woodlyn", "Lindenwold"].map String.toList

/-- `PATCO_STATIONS_EASTBOUND = list(reversed(PATCO_STATIONS_WESTBOUND))`. -/
def PATCO_STATIONS_EASTBOUND : List Str := PATCO_STATIONS_WESTBOUND.reverse

/-- The segment created for station pair `(i, i + 1)` of one CSV row by
`process_csv_to_dynamodb`. -/
def segAt (tripId : Nat) (stations : List Str) (row : List Str) (i : Nat) : Segment :=
  { trip_id := tripId
    departure_time := pyStrip (row.getD i [])
    arrival_time := pyStrip (row.getD (i + 1) [])
    source_station_index := i
    destination_station_index := i + 1
    source_station_name := stations.getD i []
    destination_station_name := stations.getD (i + 1) []
    is_valid := !(pyStrip (row.getD i []) == closedTok) &&
      !(pyStrip (row.getD (i + 1) []) == closedTok) }

/-- The segments created for one CSV row by `process_csv_to_dynamodb`
(`for i in range(len(row) - 1)`). -/
def segmentsOfRow (tripId : Nat) (stations : List Str) (row : List Str) : List Segment :=
  (List.range (row.length - 1)).map (segAt tripId stations row)

/-- `csv.reader(csv_content.strip().split('\n'))` for the unquoted CSV
this pipeline writes: each line split on commas; an empty line yields an
empty row. -/
def csvRows (csv : Str) : List (List Str) :=
  (splitLines (pyStrip csv)).map (fun line => if line == [] then [] else splitCommas line)

/-- `process_csv_to_dynamodb` of `StoreDataInDynamoDB/lambda_function.py`,
restricted to the items it writes (`trip_counter` starts at 1). -/
def process_csv_to_dynamodb (csv : Str) (stations : List Str) : List Segment :=
  ((csvRows csv).enum.map (fun p => segmentsOfRow (p.1 + 1) stations p.2)).flatten

/-- `convert_time_to_sortable` of `QueryScheduleAPI/lambda_function.py`:
12→24-hour conversion of the parsed hour. -/
def convHourTo24 (h : Int) (ap : Char) : Int :=
  if ap = 'P' ∧ h ≠ 12 then h + 12
  else if ap = 'A' ∧ h = 12 then 0
  else h

/-- `convert_time_to_sortable` of `QueryScheduleAPI/lambda_function.py`.
Returns minutes since midnight, or the sentinel 9999 on `CLOSED`, empty
input, a missing `A`/`P` suffix, or any `int()` failure. -/
def convert_time_to_sortable (t : Str) : Int :=
  if t == closedTok || t == [] then 9999
  else
    match t.getLast? with
    | none => 9999
    | some ap =>
      if ap == 'A' || ap == 'P' then
        let part := t.dropLast
        if ':' ∈ part then
          match part.splitOn ':' with
          | [hs, ms] =>
            match pythonInt hs, pythonInt ms with
            | some h, some m => convHourTo24 h ap * 60 + m
            | _, _ => 9999
          | _ => 9999
        else
          match pythonInt part with
          | some h => convHourTo24 h ap * 60
          | none => 9999
      else 9999

/-- Sort key of the final `valid_trips.sort`. -/
def depKey (e : TripEntry) : Int := convert_time_to_sortable e.departure_time

/-- Comparison relation of the final sort (Python `list.sort` with a key
is a stable sort by `≤` on the key). -/
def depLe (a b : TripEntry) : Prop := depKey a ≤ depKey b

instance : DecidableRel depLe := fun a b => Int.decLe _ _

instance : IsTotal TripEntry depLe := ⟨fun a b => Int.le_total _ _⟩

instance : IsTrans TripEntry depLe := ⟨fun _ _ _ => Int.le_trans⟩

/-- Comparison relation of `segments.sort(key=lambda x: int(x['source_station_index']))`. -/
def segLe (a b : Segment) : Prop := a.source_station_index ≤ b.source_station_index

instance : DecidableRel segLe := fun a b => Nat.decLe _ _

/-- Predicate of the departure-lookup loop in
`query_trips_between_stations`. -/
def srcPred (s : Nat) (g : Segment) : Bool :=
  g.source_station_index == s && g.is_valid && !(g.departure_time == closedTok)

/-- Predicate of the arrival-lookup loop in
`query_trips_between_stations`. -/
def dstPred (d : Nat) (g : Segment) : Bool :=
  g.destination_station_index == d && g.is_valid && !(g.arrival_time == closedTok)

/-- The per-trip body of `query_trips_between_stations`: sort the trip's
segments by source index (stable), look up departure and arrival, require
all four extracted strings truthy (nonempty), then the direction/index
ordering. -/
def tripResult (s d : Nat) (dir : Direction) (tid : Nat) (segs : List Segment) :
    Option TripEntry :=
  let sorted := List.insertionSort segLe segs
  match sorted.find? (srcPred s), sorted.find? (dstPred d) with
  | some gs, some gd =>
    if gs.departure_time ≠ [] ∧ gd.arrival_time ≠ [] ∧
        gs.source_station_name ≠ [] ∧ gd.destination_station_name ≠ [] then
      if (dir = Direction.westbound ∧ s < d) ∨ (dir = Direction.eastbound ∧ d < s) then
        some { departure_time := gs.departure_time
               arrival_time := gd.arrival_time
               source_station := gs.source_station_name
               destination_station := gd.destination_station_name
               trip_id := tid
               direction := dir }
      else none
    else none
  | _, _ => none

/-- Grouping `trips[trip_id].append(item)`: trip ids in first-appearance
order (Python dicts preserve insertion order). -/
def tripIdsInOrder (items : List Segment) : List Nat :=
  items.foldl (fun acc it => if it.trip_id ∈ acc then acc else acc ++ [it.trip_id]) []

/-- `valid_trips` before the final sort, in trip (= dict-insertion)
order. -/
def collect_valid_trips (items : List Segment) (s d : Nat) (dir : Direction) :
    List TripEntry :=
  (tripIdsInOrder items).filterMap
    (fun tid => tripResult s d dir tid (items.filter (fun g => g.trip_id == tid)))

/-- `query_trips_between_stations` of `QueryScheduleAPI/lambda_function.py`
over the scanned table items. -/
def query_trips_between_stations (items : List Segment) (s d : Nat) (dir : Direction) :
    List TripEntry :=
  List.insertionSort depLe (collect_valid_trips items s d dir)

/-- The request event: `queryStringParameters` is `none` when absent or
JSON `null` (both collapse to `{}` in the handler). -/
structure QueryEvent where
  queryStringParameters : Option (List (Str × Str))

/-- Python `dict.get(k)` on the (unique-keyed) parameter map. -/
def getParam (ps : List (Str × Str)) (k : Str) : Option Str :=
  (ps.find? (fun p => p.1 == k)).map (fun p => p.2)

/-- The distinct response bodies `lambda_handler` can produce; each error
constructor corresponds to one distinct error message string. -/
inductive ApiBody where
  | errDirection
  | errRange
  | errEqual
  | errInvalidParam
  | ok (trips : List TripEntry) (total : Nat) (src dst : Int) (dir : Direction)
deriving DecidableEq, Repr

/-- An API Gateway response (headers omitted: they are constant). -/
structure ApiResponse where
  statusCode : Nat
  body : ApiBody
deriving DecidableEq, Repr

/-- `lambda_handler` of `QueryScheduleAPI/lambda_function.py`.  The two
DynamoDB tables are passed explicitly; `pythonInt` returning `none`
models the `ValueError` caught by the 400 handler. -/
def lambda_handler (ev : QueryEvent) (westItems eastItems : List Segment) : ApiResponse :=
  let ps := ev.queryStringParameters.getD []
  let srcV : Option Int :=
    match getParam ps ("source_station_index".toList) with
    | none => some 0
    | some v => pythonInt v
  let dstV : Option Int :=
    match getParam ps ("destination_station_index".toList) with
    | none => some 1
    | some v => pythonInt v
  match srcV, dstV with
  | some src, some dst =>
    let dirStr := pyLower ((getParam ps ("direction".toList)).getD ("westbound".toList))
    if ¬(dirStr = "eastbound".toList ∨ dirStr = "westbound".toList) then
      ⟨400, ApiBody.errDirection⟩
    else if ¬(0 ≤ src ∧ src ≤ 13 ∧ 0 ≤ dst ∧ dst ≤ 13) then
      ⟨400, ApiBody.errRange⟩
    else if src = dst then
      ⟨400, ApiBody.errEqual⟩
    else
      let dir := if dirStr = "eastbound".toList then Direction.eastbound
        else Direction.westbound
      let items := match dir with
        | Direction.westbound => westItems
        | Direction.eastbound => eastItems
      let trips := query_trips_between_stations items src.toNat dst.toNat dir
      ⟨200, ApiBody.ok trips trips.length src dst dir⟩
  | _, _ => ⟨400, ApiBody.errInvalidParam⟩

/-! ## Generic helper lemmas -/

theorem dropWhile_eq_self_of {p : α → Bool} {l : List α} (h : ∀ c ∈ l, p c = false) :
    l.dropWhile p = l := by
  cases l with
  | nil => rfl
  | cons a as => simp [List.dropWhile_cons, h a (List.mem_cons_self a as)]

theorem pyStrip_noop {l : Str} (h : ∀ c ∈ l, isPySpace c = false) : pyStrip l = l := by
  unfold pyStrip
  rw [dropWhile_eq_self_of h, dropWhile_eq_self_of (fun c hc => h c (List.mem_reverse.mp hc)),
    List.reverse_reverse]

theorem find?_append_first {p : α → Bool} {l₁ : List α} {x : α} (l₂ : List α)
    (h₁ : ∀ y ∈ l₁, p y = false) (hx : p x = true) :
    (l₁ ++ x :: l₂).find? p = some x := by
  rw [List.find?_append, List.find?_eq_none.mpr (fun y hy => by simp [h₁ y hy]),
    List.find?_cons_of_pos _ hx]
  rfl

theorem find?_map_range_eq (f : Nat → α) (p : α → Bool) :
    ∀ (n s : Nat), s < n → (∀ m, m ≠ s → p (f m) = false) →
      ((List.range n).map f).find? p = if p (f s) then some (f s) else none := by
  intro n
  induction n with
  | zero => omega
  | succ n ih =>
    intro s hs hmiss
    rw [List.range_succ, List.map_append, List.find?_append]
    rcases Nat.lt_or_ge s n with hlt | hge
    · rw [ih s hlt hmiss]
      by_cases hp : p (f s) = true
      · simp [hp]
      · have hn : p (f n) = false := hmiss n (by omega)
        have hps : p (f s) = false := by simpa using hp
        simp [hps, List.find?, List.map, hn]
    · have hsn : s = n := by omega
      subst hsn
      rw [List.find?_eq_none.mpr (fun y hy => by
        obtain ⟨m, hm, rfl⟩ := List.mem_map.mp hy
        have : m ≠ s := by simp only [List.mem_range] at hm; omega
        simp [hmiss m this])]
      by_cases hp : p (f s) = true
      · simp [List.find?, hp]
      · simp only [Bool.not_eq_true] at hp
        simp [List.find?, hp]

theorem mem_splitOnP_not {p : α → Bool} :
    ∀ {l : List α} {piece : List α}, piece ∈ l.splitOnP p → ∀ x ∈ piece, p x = false := by
  intro l
  induction l with
  | nil =>
    intro piece hp x hx
    simp only [List.splitOnP_nil, List.mem_singleton] at hp
    subst hp
    simp at hx
  | cons a as ih =>
    intro piece hp x hx
    rw [List.splitOnP_cons] at hp
    by_cases ha : p a = true
    · rw [if_pos ha] at hp
      rcases List.mem_cons.mp hp with h | h
      · subst h; simp at hx
      · exact ih h x hx
    · rw [if_neg ha] at hp
      rcases hh : as.splitOnP p with _ | ⟨hd, tl⟩
      · exact absurd hh (List.splitOnP_ne_nil p as)
      · rw [hh] at hp
        simp only [List.modifyHead] at hp
        rcases List.mem_cons.mp hp with h | h
        · subst h
          rcases List.mem_cons.mp hx with h | h
          · subst h; simpa using ha
          · exact ih (hh ▸ List.mem_cons_self hd tl) x h
        · exact ih (hh ▸ List.mem_cons_of_mem hd h) x hx

theorem mem_splitOn_not [DecidableEq α] {l piece : List α} {c : α}
    (hp : piece ∈ l.splitOn c) : c ∉ piece := by
  intro hc
  have := mem_splitOnP_not (p := (· == c)) hp c hc
  simp at this

theorem splitLines_joinLines {ls : List Str} (h : ∀ l ∈ ls, '\n' ∉ l) (h2 : ls ≠ []) :
    splitLines (joinLines ls) = ls :=
  List.splitOn_intercalate ls '\n' h h2

theorem joinLines_splitLines (l : Str) : joinLines (splitLines l) = l :=
  List.intercalate_splitOn l '\n'

theorem splitCommas_joinCommas {ls : List Str} (h : ∀ l ∈ ls, ',' ∉ l) (h2 : ls ≠ []) :
    splitCommas (joinCommas ls) = ls :=
  List.splitOn_intercalate ls ',' h h2

theorem joinCommas_splitCommas (l : Str) : joinCommas (splitCommas l) = l :=
  List.intercalate_splitOn l ','

theorem joinLines_cons (x : Str) (xs : List Str) :
    joinLines (x :: xs) = if xs = [] then x else x ++ '\n' :: joinLines xs := by
  cases xs with
  | nil => simp [joinLines, List.intercalate]
  | cons y ys =>
    rw [if_neg (by simp)]
    simp only [joinLines, List.intercalate, List.intersperse_cons₂, List.flatten_cons]
    simp

theorem joinCommas_cons (x : Str) (xs : List Str) :
    joinCommas (x :: xs) = if xs = [] then x else x ++ ',' :: joinCommas xs := by
  cases xs with
  | nil => simp [joinCommas, List.intercalate]
  | cons y ys =>
    rw [if_neg (by simp)]
    simp only [joinCommas, List.intercalate, List.intersperse_cons₂, List.flatten_cons]
    simp

theorem joinLines_ne_nil_of {ls : List Str} (hne : ls ≠ []) (h : ∀ l ∈ ls, l ≠ []) :
    joinLines ls ≠ [] := by
  cases ls with
  | nil => exact absurd rfl hne
  | cons x xs =>
    rw [joinLines_cons]
    split
    · exact h x (List.mem_cons_self x xs)
    · have := h x (List.mem_cons_self x xs)
      intro hcontra
      cases hx : x with
      | nil => exact this hx
      | cons c cs => rw [hx] at hcontra; simp at hcontra

theorem joinCommas_ne_nil_of {ls : List Str} (hne : ls ≠ []) (h : ∀ l ∈ ls, l ≠ []) :
    joinCommas ls ≠ [] := by
  cases ls with
  | nil => exact absurd rfl hne
  | cons x xs =>
    rw [joinCommas_cons]
    split
    · exact h x (List.mem_cons_self x xs)
    · have := h x (List.mem_cons_self x xs)
      intro hcontra
      cases hx : x with
      | nil => exact this hx
      | cons c cs => rw [hx] at hcontra; simp at hcontra

/-! ## C3: row width after column normalization -/

/-- A raw extracted line carrying 29 concatenated time glyphs — a single
source line with more than twice the station count of tokens. -/
def row29Input : Str :=
  ("1:00A1:00A1:00A1:00A1:00A1:00A1:00A1:00A1:00A1:00A1:00A1:00A1:00A1:00A1:00A" ++
   "1:00A1:00A1:00A1:00A1:00A1:00A1:00A1:00A1:00A1:00A1:00A1:00A1:00A1:00A").toList

/-- C3: the claim states that no row emitted by the Text Normalizer ever
has more than 14 fields (the single trailing partial row having fewer).
On a single input line with 29 tokens, `_normalize_to_14_columns`
extracts 14 columns only once per input line, so the trailing row emitted
has 15 fields — contradicting both the claim and the function's own
docstring ("Ensure each line has exactly 14 columns").  This theorem
evaluates the embedded normalizer at that failing input: the output has
two rows with field counts 14 and 15. -/
theorem C3_trailing_row_overflow :
    (splitLines (process_text row29Input)).map (fun r => (splitCommas r).length) =
      [14, 15] := by
  rfl

/-! ## C7: behaviour when no valid schedule content survives -/

/-- The token stream that survives steps 1-6 of `_process_text` (the
input that step 7, `_normalize_to_14_columns`, re-chunks into rows). -/
def survivingTokens (l : Str) : List Str :=
  (splitLines (fix_missing_am_pm (fix_closed_formatting (filter_valid_lines
    (addCommasAfterTimes (removeWhitespace (replaceSpecialChars l))))))).flatMap
    (fun line =>
      if pyStrip line == [] then []
      else (splitCommas (pyStrip line)).filter (fun c => !(c == [])))

theorem norm14Go_eq_nil_iff : ∀ (lines : List Str) (acc : List Str),
    norm14Go lines acc = [] ↔
      (acc = [] ∧ lines.flatMap (fun line =>
        if pyStrip line == [] then []
        else (splitCommas (pyStrip line)).filter (fun c => !(c == []))) = []) := by
  intro lines
  induction lines with
  | nil =>
    intro acc
    simp only [norm14Go, List.flatMap_nil, and_true]
    by_cases h : acc = [] <;> simp [h]
  | cons line rest ih =>
    intro acc
    simp only [norm14Go, List.flatMap_cons]
    by_cases hs : pyStrip line == []
    · rw [if_pos hs, if_pos hs, List.nil_append]
      exact ih acc
    · rw [if_neg hs, if_neg hs]
      by_cases hlen :
          14 ≤ (acc ++ (splitCommas (pyStrip line)).filter (fun c => !(c == []))).length
      · rw [if_pos hlen]
        constructor
        · intro h; simp at h
        · rintro ⟨hacc, htoks⟩
          rcases List.append_eq_nil.mp htoks with ⟨htok1, _⟩
          rw [hacc, htok1] at hlen
          simp at hlen
      · rw [if_neg hlen, ih]
        rw [List.append_eq_nil, List.append_eq_nil, and_assoc]

theorem norm14Go_rows_sound : ∀ (lines : List Str) (acc : List Str),
    (∀ t ∈ acc, t ≠ []) →
    ∀ row ∈ norm14Go lines acc, row ≠ [] ∧ ∀ t ∈ row, t ≠ [] := by
  intro lines
  induction lines with
  | nil =>
    intro acc hacc row hrow
    simp only [norm14Go] at hrow
    by_cases h : acc = []
    · rw [if_pos (by simpa using h)] at hrow
      simp at hrow
    · rw [if_neg (by simpa using h)] at hrow
      rcases List.mem_singleton.mp hrow with rfl
      exact ⟨h, hacc⟩
  | cons line rest ih =>
    intro acc hacc row hrow
    simp only [norm14Go] at hrow
    by_cases hs : pyStrip line == []
    · rw [if_pos hs] at hrow
      exact ih acc hacc row hrow
    · rw [if_neg hs] at hrow
      have hacc' : ∀ t ∈ acc ++ (splitCommas (pyStrip line)).filter (fun c => !(c == [])),
          t ≠ [] := by
        intro t ht
        rcases List.mem_append.mp ht with h | h
        · exact hacc t h
        · have := (List.mem_filter.mp h).2
          simpa using this
      by_cases hlen :
          14 ≤ (acc ++ (splitCommas (pyStrip line)).filter (fun c => !(c == []))).length
      · rw [if_pos hlen] at hrow
        rcases List.mem_cons.mp hrow with rfl | h
        · refine ⟨?_, fun t ht => hacc' t (List.mem_of_mem_take ht)⟩
          intro hnil
          have := congrArg List.length hnil
          rw [List.length_take] at this
          simp only [List.length_nil] at this
          omega
        · exact ih _ (fun t ht => hacc' t (List.mem_of_mem_drop ht)) row h
      · rw [if_neg hlen] at hrow
        exact ih _ hacc' row hrow

/-- C7 (counterexample): on the input `"x"` no line survives filtering,
and `_process_text` returns the empty string — a zero-row output string —
rather than raising; no `MalformedScheduleError` (or any exception for
this case) exists anywhere in the repository, so the claimed error path
does not exist. -/
theorem C7_counterexample : process_text ("x".toList) = [] := by rfl

/-- C7 (amended): when no valid schedule content survives filtering, the
normalizer returns the empty string (a zero-row output) instead of
failing: `_process_text` returns the empty string exactly when the token
stream surviving steps 1-6 is empty, and never raises. -/
theorem C7_amended (l : Str) :
    process_text l = [] ↔ survivingTokens l = [] := by
  unfold process_text normalize_to_14_columns survivingTokens
  constructor
  · intro h
    by_contra htok
    have hrows : norm14Go (splitLines (fix_missing_am_pm (fix_closed_formatting
        (filter_valid_lines (addCommasAfterTimes (removeWhitespace
          (replaceSpecialChars l))))))) [] ≠ [] := by
      intro hr
      exact htok ((norm14Go_eq_nil_iff _ []).mp hr).2
    have hsound := norm14Go_rows_sound (splitLines (fix_missing_am_pm
      (fix_closed_formatting (filter_valid_lines (addCommasAfterTimes
        (removeWhitespace (replaceSpecialChars l))))))) [] (by simp)
    refine joinLines_ne_nil_of ?_ ?_ h
    · simpa using hrows
    · intro r hr
      obtain ⟨row, hrow, rfl⟩ := List.mem_map.mp hr
      exact joinCommas_ne_nil_of (hsound row hrow).1 (hsound row hrow).2
  · intro h
    rw [(norm14Go_eq_nil_iff _ []).mpr ⟨rfl, h⟩]
    rfl

/-! ## C4: direction split -/

/-- Spec-side description of "the last non-CLOSED field of the row": the
last member of the row's stripped fields that is neither empty nor
`CLOSED`. -/
def lastNonClosedField (cols : List Str) : Option Str :=
  ((cols.map pyStrip).filter (fun s => !(s == []) && !(s == closedTok))).getLast?

/-- Spec-side description of "the first non-CLOSED field of the row". -/
def firstNonClosedField (cols : List Str) : Option Str :=
  ((cols.map pyStrip).filter (fun s => !(s == []) && !(s == closedTok))).head?

theorem lastNonClosedCol_eq_field (cols : List Str) :
    lastNonClosedCol cols = lastNonClosedField cols := by
  unfold lastNonClosedCol lastNonClosedField
  rw [List.filter_getLast?, ← List.map_reverse]

theorem firstNonClosedCol_eq_field (cols : List Str) :
    firstNonClosedCol cols = firstNonClosedField cols := by
  unfold firstNonClosedCol firstNonClosedField
  rw [List.filter_head?]

/-- The claim's boundary condition between row `i` and row `i + 1`: both
rows non-blank, the last non-CLOSED field of the upper row a valid PM
time and the first non-CLOSED field of the lower row a valid AM time. -/
def isDirectionBoundary (lines : List Str) (i : Nat) : Bool :=
  !(pyStrip (lines.getD i []) == []) && !(pyStrip (lines.getD (i + 1) []) == []) &&
    ((lastNonClosedField (splitCommas (pyStrip (lines.getD i [])))).elim false isPmTime) &&
    ((firstNonClosedField (splitCommas (pyStrip (lines.getD (i + 1) [])))).elim false isAmTime)

theorem isDirectionBoundary_head (l1 l2 : Str) (rest : List Str) :
    isDirectionBoundary (l1 :: l2 :: rest) 0 =
      (!(pyStrip l1 == []) && !(pyStrip l2 == []) &&
        isSplitPair (pyStrip l1) (pyStrip l2)) := by
  unfold isDirectionBoundary isSplitPair
  rw [lastNonClosedCol_eq_field, firstNonClosedCol_eq_field]
  simp only [List.getD_cons_zero, List.getD_cons_succ]
  cases lastNonClosedField (splitCommas (pyStrip l1)) <;>
    cases firstNonClosedField (splitCommas (pyStrip l2)) <;>
      simp [Option.elim, Bool.and_assoc]

theorem isDirectionBoundary_shift (l1 : Str) (ls : List Str) (i : Nat) :
    isDirectionBoundary (l1 :: ls) (i + 1) = isDirectionBoundary ls i := by
  unfold isDirectionBoundary
  simp only [List.getD_cons_succ]

theorem findSplitIndexGo_eq_none :
    ∀ (lines : List Str) (base : Nat),
      (∀ i, i + 1 < lines.length → isDirectionBoundary lines i = false) →
      findSplitIndexGo lines base = none := by
  intro lines
  induction lines with
  | nil => intro base _; rfl
  | cons l1 rest ih =>
    intro base hb
    match rest with
    | [] => rfl
    | l2 :: rest' =>
      have h0 : isDirectionBoundary (l1 :: l2 :: rest') 0 = false := by
        apply hb; simp
      rw [isDirectionBoundary_head] at h0
      have hrec : findSplitIndexGo (l2 :: rest') (base + 1) = none := by
        apply ih
        intro i hi
        have := hb (i + 1) (by simpa using hi)
        rwa [isDirectionBoundary_shift] at this
      unfold findSplitIndexGo
      by_cases hblank : (pyStrip l1 == []) || (pyStrip l2 == [])
      · rw [if_pos hblank]; exact hrec
      · rw [if_neg hblank]
        have hpair : isSplitPair (pyStrip l1) (pyStrip l2) = false := by
          simp only [Bool.or_eq_true, not_or, Bool.not_eq_true] at hblank
          simpa [hblank.1, hblank.2] using h0
        rw [if_neg (by simp [hpair])]
        exact hrec

theorem findSplitIndexGo_eq_some :
    ∀ (lines : List Str) (base i : Nat),
      i + 1 < lines.length →
      isDirectionBoundary lines i = true →
      (∀ j, j < i → isDirectionBoundary lines j = false) →
      findSplitIndexGo lines base = some (base + i + 1) := by
  intro lines
  induction lines with
  | nil => intro base i hi _ _; simp at hi
  | cons l1 rest ih =>
    intro base i hi hb hmiss
    match rest with
    | [] => simp at hi
    | l2 :: rest' =>
      match i with
      | 0 =>
        rw [isDirectionBoundary_head] at hb
        simp only [Bool.and_eq_true] at hb
        have h1 : (pyStrip l1 == []) = false := by simpa using hb.1.1
        have h2 : (pyStrip l2 == []) = false := by simpa using hb.1.2
        unfold findSplitIndexGo
        rw [if_neg (by simp [h1, h2]), if_pos hb.2]
      | j + 1 =>
        have h0 : isDirectionBoundary (l1 :: l2 :: rest') 0 = false :=
          hmiss 0 (by omega)
        have hrec : findSplitIndexGo (l2 :: rest') (base + 1) = some (base + 1 + j + 1) := by
          apply ih (base + 1) j
          · simp only [List.length_cons] at hi ⊢; omega
          · rwa [← isDirectionBoundary_shift l1]
          · intro k hk
            have := hmiss (k + 1) (by omega)
            rwa [isDirectionBoundary_shift] at this
        rw [isDirectionBoundary_head] at h0
        unfold findSplitIndexGo
        by_cases hblank : (pyStrip l1 == []) || (pyStrip l2 == [])
        · rw [if_pos hblank, hrec]
          congr 1
          omega
        · rw [if_neg hblank]
          have hpair : isSplitPair (pyStrip l1) (pyStrip l2) = false := by
            simp only [Bool.or_eq_true, not_or, Bool.not_eq_true] at hblank
            simpa [hblank.1, hblank.2] using h0
          rw [if_neg (by simp [hpair]), hrec]
          congr 1
          omega

/-- C4 (counterexample): the claim requires leading/trailing fully blank
rows to be trimmed from each resulting sub-table, including the no-split
case in which "the entire table is Westbound".  On the table
`"\n1:00A"` (a blank row followed by a data row, no PM→AM transition),
`_split_westbound_eastbound` returns the text unchanged: the Westbound
sub-table keeps its leading blank row. -/
theorem C4_counterexample :
    split_westbound_eastbound ('\n' :: "1:00A".toList) =
        ('\n' :: "1:00A".toList, []) ∧
      pyStrip ((splitLines ('\n' :: "1:00A".toList)).getD 0 ['x']) = [] ∧
      clean_empty_lines (splitLines ('\n' :: "1:00A".toList)) ≠
        splitLines ('\n' :: "1:00A".toList) := by
  refine ⟨rfl, rfl, by decide⟩

/-- C4 (amended): the direction split is placed at the first row boundary
(scanning adjacent line pairs from the top) whose upper row's last
non-empty non-CLOSED field is a PM time and whose lower row's first
non-empty non-CLOSED field is an AM time; rows before the boundary form
the Westbound sub-table and rows at or after it the Eastbound sub-table,
each trimmed of leading and trailing blank rows; when no such boundary
exists the whole table is returned as the Westbound sub-table *unchanged*
(no trimming) and the Eastbound sub-table is empty. -/
theorem C4_amended (text : Str) :
    ((∀ i, i + 1 < (splitLines text).length →
        isDirectionBoundary (splitLines text) i = false) →
      split_westbound_eastbound text = (text, [])) ∧
    (∀ i, i + 1 < (splitLines text).length →
      isDirectionBoundary (splitLines text) i = true →
      (∀ j, j < i → isDirectionBoundary (splitLines text) j = false) →
      split_westbound_eastbound text =
        (joinLines (clean_empty_lines ((splitLines text).take (i + 1))),
         joinLines (clean_empty_lines ((splitLines text).drop (i + 1))))) := by
  constructor
  · intro hnone
    have h := findSplitIndexGo_eq_none (splitLines text) 0 hnone
    simp only [split_westbound_eastbound, h]
  · intro i hi hb hmiss
    have h := findSplitIndexGo_eq_some (splitLines text) 0 i hi hb hmiss
    simp only [split_westbound_eastbound, h]
    simp only [Nat.zero_add]

/-- C4 witness: the amended theorem applied to the concrete table
`"11:50P\n12:05A"`, which has its (unique) boundary between rows 0
and 1. -/
theorem C4_amended_witness :
    split_westbound_eastbound ("11:50P\n12:05A".toList) =
      ("11:50P".toList, "12:05A".toList) := by
  have h := (C4_amended ("11:50P\n12:05A".toList)).2 0 (by decide) (by decide)
    (fun j hj => absurd hj (by omega))
  simpa using h

/-! ## C9: difference flagging -/

theorem mem_filter_ne_nil {a : Str} {l : List Str} (ha : a ≠ []) :
    a ∈ l.filter (fun s => !(s == [])) ↔ a ∈ l := by
  rw [List.mem_filter]
  simp [ha]

/-- C9: with a readable baseline, each non-blank row of the schedule text
gets `,true` appended exactly when its stripped (canonical) form is
absent from the stripped baseline rows and `,false` otherwise, blank rows
are left alone; when the baseline read fails (`none`), or the schedule
text is blank, the text is returned unchanged — the flagger never aborts
the pipeline. -/
theorem C9_flagging (text reg : Str) :
    (add_difference_flags text none = text) ∧
    (pyStrip text = [] → add_difference_flags text (some reg) = text) ∧
    (pyStrip text ≠ [] →
      (splitLines (add_difference_flags text (some reg))).length =
          (splitLines text).length ∧
      ∀ k, k < (splitLines text).length →
        (splitLines (add_difference_flags text (some reg))).getD k [] =
          (if pyStrip ((splitLines text).getD k []) = [] then (splitLines text).getD k []
           else if pyStrip ((splitLines text).getD k []) ∈ ((splitLines reg).map pyStrip)
           then (splitLines text).getD k [] ++ (",false".toList)
           else (splitLines text).getD k [] ++ (",true".toList))) := by
  refine ⟨?_, ?_, ?_⟩
  · unfold add_difference_flags
    by_cases h : pyStrip text == [] <;> simp [h]
  · intro h
    unfold add_difference_flags
    rw [if_pos (by simpa using h)]
  · intro hne
    have hrw : add_difference_flags text (some reg) =
        joinLines ((splitLines text).map (fun line =>
          if pyStrip line == [] then line
          else if pyStrip line ∈ ((splitLines reg).map pyStrip).filter (fun s => !(s == []))
          then line ++ (",false".toList)
          else line ++ (",true".toList))) := by
      unfold add_difference_flags
      rw [if_neg (by simpa using hne)]
    have hnonl : ∀ l ∈ (splitLines text).map (fun line =>
        if pyStrip line == [] then line
        else if pyStrip line ∈ ((splitLines reg).map pyStrip).filter (fun s => !(s == []))
        then line ++ (",false".toList)
        else line ++ (",true".toList)), '\n' ∉ l := by
      intro l hl
      obtain ⟨line, hline, rfl⟩ := List.mem_map.mp hl
      have hno : '\n' ∉ line := mem_splitOn_not hline
      split
      · exact hno
      · split <;>
        · intro hmem
          rcases List.mem_append.mp hmem with h | h
          · exact hno h
          · simp at h
    have hnil : (splitLines text).map (fun line =>
        if pyStrip line == [] then line
        else if pyStrip line ∈ ((splitLines reg).map pyStrip).filter (fun s => !(s == []))
        then line ++ (",false".toList)
        else line ++ (",true".toList)) ≠ [] := by
      simp [splitLines, List.splitOn, List.splitOnP_ne_nil]
    have hsplit := splitLines_joinLines hnonl hnil
    rw [hrw, hsplit]
    constructor
    · exact List.length_map _ _
    · intro k hk
      have hk' : k < ((splitLines text).map (fun line =>
          if pyStrip line == [] then line
          else if pyStrip line ∈ ((splitLines reg).map pyStrip).filter (fun s => !(s == []))
          then line ++ (",false".toList)
          else line ++ (",true".toList))).length := by
        simpa using hk
      rw [List.getD_eq_getElem?_getD, List.getElem?_eq_getElem hk',
        List.getD_eq_getElem?_getD, List.getElem?_eq_getElem hk]
      simp only [Option.getD_some, List.getElem_map]
      by_cases hblank : pyStrip ((splitLines text)[k]) = []
      · rw [if_pos (by simpa using hblank), if_pos hblank]
      · rw [if_neg (by simpa using hblank), if_neg hblank]
        by_cases hmem : pyStrip ((splitLines text)[k]) ∈ ((splitLines reg).map pyStrip)
        · rw [if_pos ((mem_filter_ne_nil hblank).mpr hmem), if_pos hmem]
        · rw [if_neg (fun hc => hmem ((mem_filter_ne_nil hblank).mp hc)), if_neg hmem]

/-- C9 witness: the flagging theorem applied to a concrete one-row text
with a baseline that does not contain the row: the row is flagged
`,true`; and to a failing baseline read: the text is unchanged. -/
theorem C9_flagging_witness :
    add_difference_flags ("1:00A".toList) none = ("1:00A".toList) ∧
    (splitLines (add_difference_flags ("1:00A".toList) (some ("x".toList)))).getD 0 [] =
      ("1:00A,true".toList) := by
  refine ⟨(C9_flagging ("1:00A".toList) ("x".toList)).1, ?_⟩
  have h := ((C9_flagging ("1:00A".toList) ("x".toList)).2.2 (by decide)).2 0 (by decide)
  rw [h]
  decide

/-! ## C8 and C10: query validation and defaults -/

/-- C8: with both indices supplied as integer strings, the handler
rejects — with a 400 response carrying the error message naming the
violated constraint, independently of the stored tables (no trip scan) —
exactly the requests with a bad direction, an out-of-range index, or
equal indices (in that checking order); requests passing all three
validations are answered 200 with the scan result. -/
theorem C8_validation (ss ds dstr : Str) (s d : Int)
    (hs : pythonInt ss = some s) (hd : pythonInt ds = some d)
    (w e : List Segment) :
    ((pyLower dstr ≠ ("eastbound".toList) ∧ pyLower dstr ≠ ("westbound".toList)) →
      lambda_handler ⟨some [(("source_station_index".toList), ss),
        (("destination_station_index".toList), ds), (("direction".toList), dstr)]⟩ w e =
        ⟨400, ApiBody.errDirection⟩) ∧
    ((pyLower dstr = ("eastbound".toList) ∨ pyLower dstr = ("westbound".toList)) →
      ¬(0 ≤ s ∧ s ≤ 13 ∧ 0 ≤ d ∧ d ≤ 13) →
      lambda_handler ⟨some [(("source_station_index".toList), ss),
        (("destination_station_index".toList), ds), (("direction".toList), dstr)]⟩ w e =
        ⟨400, ApiBody.errRange⟩) ∧
    ((pyLower dstr = ("eastbound".toList) ∨ pyLower dstr = ("westbound".toList)) →
      (0 ≤ s ∧ s ≤ 13 ∧ 0 ≤ d ∧ d ≤ 13) → s = d →
      lambda_handler ⟨some [(("source_station_index".toList), ss),
        (("destination_station_index".toList), ds), (("direction".toList), dstr)]⟩ w e =
        ⟨400, ApiBody.errEqual⟩) ∧
    ((pyLower dstr = ("eastbound".toList) ∨ pyLower dstr = ("westbound".toList)) →
      (0 ≤ s ∧ s ≤ 13 ∧ 0 ≤ d ∧ d ≤ 13) → s ≠ d →
      lambda_handler ⟨some [(("source_station_index".toList), ss),
        (("destination_station_index".toList), ds), (("direction".toList), dstr)]⟩ w e =
        ⟨200, ApiBody.ok
          (query_trips_between_stations
            (if pyLower dstr = ("eastbound".toList) then e else w) s.toNat d.toNat
            (if pyLower dstr = ("eastbound".toList) then Direction.eastbound
             else Direction.westbound))
          (query_trips_between_stations
            (if pyLower dstr = ("eastbound".toList) then e else w) s.toNat d.toNat
            (if pyLower dstr = ("eastbound".toList) then Direction.eastbound
             else Direction.westbound)).length s d
          (if pyLower dstr = ("eastbound".toList) then Direction.eastbound
           else Direction.westbound)⟩) := by
  have h1 : getParam [(("source_station_index".toList), ss),
      (("destination_station_index".toList), ds), (("direction".toList), dstr)]
      ("source_station_index".toList) = some ss := rfl
  have h2 : getParam [(("source_station_index".toList), ss),
      (("destination_station_index".toList), ds), (("direction".toList), dstr)]
      ("destination_station_index".toList) = some ds := rfl
  have h3 : getParam [(("source_station_index".toList), ss),
      (("destination_station_index".toList), ds), (("direction".toList), dstr)]
      ("direction".toList) = some dstr := rfl
  simp only [lambda_handler, Option.getD_some, h1, h2, h3, hs, hd]
  refine ⟨?_, ?_, ?_, ?_⟩
  · intro hdir
    rw [if_pos (by tauto)]
  · intro hdir hrange
    rw [if_neg (by tauto), if_pos hrange]
  · intro hdir hrange heq
    rw [if_neg (by tauto), if_neg (by tauto), if_pos heq]
  · intro hdir hrange hne
    rw [if_neg (by tauto), if_neg (by tauto), if_neg hne]
    by_cases heast : pyLower dstr = ("eastbound".toList)
    · simp only [if_pos heast]
    · simp only [if_neg heast]

/-- C8 witness: a request with equal in-range indices is rejected with
the equality error; a well-formed distinct-index westbound request is
answered 200. -/
theorem C8_validation_witness :
    lambda_handler ⟨some [(("source_station_index".toList), ("3".toList)),
      (("destination_station_index".toList), ("3".toList)),
      (("direction".toList), ("westbound".toList))]⟩ [] [] =
      ⟨400, ApiBody.errEqual⟩ ∧
    lambda_handler ⟨some [(("source_station_index".toList), ("0".toList)),
      (("destination_station_index".toList), ("4".toList)),
      (("direction".toList), ("Nowhere".toList))]⟩ [] [] =
      ⟨400, ApiBody.errDirection⟩ := by
  constructor
  · exact (C8_validation ("3".toList) ("3".toList) ("westbound".toList) 3 3
      (by decide) (by decide) [] []).2.2.1 (by decide) (by decide) rfl
  · exact (C8_validation ("0".toList) ("4".toList) ("Nowhere".toList) 0 4
      (by decide) (by decide) [] []).1 (by decide)

/-- C10: a request that omits `queryStringParameters`, or any single
parameter, is not rejected: the handler substitutes defaults source 0,
destination 1, direction westbound (adding the default explicitly gives
the same response), and the fully-defaulted request is answered with the
westbound 0→1 scan; a present but non-integer string in either index
parameter, by contrast, yields the 400 invalid-parameter response. -/
theorem C10_defaults (ps : List (Str × Str)) (w e : List Segment) :
    (lambda_handler ⟨none⟩ w e =
      ⟨200, ApiBody.ok (query_trips_between_stations w 0 1 Direction.westbound)
        (query_trips_between_stations w 0 1 Direction.westbound).length 0 1
        Direction.westbound⟩) ∧
    (lambda_handler ⟨none⟩ w e =
      lambda_handler ⟨some [(("source_station_index".toList), ("0".toList)),
        (("destination_station_index".toList), ("1".toList)),
        (("direction".toList), ("westbound".toList))]⟩ w e) ∧
    (getParam ps ("source_station_index".toList) = none →
      lambda_handler ⟨some ps⟩ w e =
        lambda_handler ⟨some ((("source_station_index".toList), ("0".toList)) :: ps)⟩ w e) ∧
    (getParam ps ("destination_station_index".toList) = none →
      lambda_handler ⟨some ps⟩ w e =
        lambda_handler
          ⟨some ((("destination_station_index".toList), ("1".toList)) :: ps)⟩ w e) ∧
    (getParam ps ("direction".toList) = none →
      lambda_handler ⟨some ps⟩ w e =
        lambda_handler ⟨some ((("direction".toList), ("westbound".toList)) :: ps)⟩ w e) ∧
    (∀ v, getParam ps ("source_station_index".toList) = some v → pythonInt v = none →
      lambda_handler ⟨some ps⟩ w e = ⟨400, ApiBody.errInvalidParam⟩) ∧
    (∀ v, getParam ps ("destination_station_index".toList) = some v → pythonInt v = none →
      lambda_handler ⟨some ps⟩ w e = ⟨400, ApiBody.errInvalidParam⟩) := by
  refine ⟨rfl, rfl, ?_, ?_, ?_, ?_, ?_⟩
  · intro h
    have e1 : getParam ((("source_station_index".toList), ("0".toList)) :: ps)
        ("source_station_index".toList) = some ("0".toList) := rfl
    have e2 : getParam ((("source_station_index".toList), ("0".toList)) :: ps)
        ("destination_station_index".toList) =
        getParam ps ("destination_station_index".toList) := rfl
    have e3 : getParam ((("source_station_index".toList), ("0".toList)) :: ps)
        ("direction".toList) = getParam ps ("direction".toList) := rfl
    have hint : pythonInt ("0".toList) = some 0 := rfl
    simp only [lambda_handler, Option.getD_some, h, e1, e2, e3, hint]
  · intro h
    have e1 : getParam ((("destination_station_index".toList), ("1".toList)) :: ps)
        ("destination_station_index".toList) = some ("1".toList) := rfl
    have e2 : getParam ((("destination_station_index".toList), ("1".toList)) :: ps)
        ("source_station_index".toList) = getParam ps ("source_station_index".toList) := rfl
    have e3 : getParam ((("destination_station_index".toList), ("1".toList)) :: ps)
        ("direction".toList) = getParam ps ("direction".toList) := rfl
    have hint : pythonInt ("1".toList) = some 1 := rfl
    simp only [lambda_handler, Option.getD_some, h, e1, e2, e3, hint]
  · intro h
    have e1 : getParam ((("direction".toList), ("westbound".toList)) :: ps)
        ("direction".toList) = some ("westbound".toList) := rfl
    have e2 : getParam ((("direction".toList), ("westbound".toList)) :: ps)
        ("source_station_index".toList) = getParam ps ("source_station_index".toList) := rfl
    have e3 : getParam ((("direction".toList), ("westbound".toList)) :: ps)
        ("destination_station_index".toList) =
        getParam ps ("destination_station_index".toList) := rfl
    simp only [lambda_handler, Option.getD_some, h, e1, e2, e3, Option.getD_none]
  · intro v hv hnone
    simp only [lambda_handler, Option.getD_some, hv, hnone]
  · intro v hv hnone
    cases hs : getParam ps ("source_station_index".toList) with
    | none => simp only [lambda_handler, Option.getD_some, hs, hv, hnone]
    | some sv =>
      cases hsv : pythonInt sv with
      | none => simp only [lambda_handler, Option.getD_some, hs, hv, hnone, hsv]
      | some s => simp only [lambda_handler, Option.getD_some, hs, hv, hnone, hsv]

/-- C10 witness: the defaults theorem applied at concrete inputs — an
empty parameter map behaves as if source 0 had been supplied, and a
non-integer string in the source or in the destination index parameter
is answered 400. -/
theorem C10_defaults_witness :
    lambda_handler ⟨some []⟩ [] [] =
      lambda_handler ⟨some [(("source_station_index".toList), ("0".toList))]⟩ [] [] ∧
    lambda_handler ⟨some [(("source_station_index".toList), ("abc".toList))]⟩ [] [] =
      ⟨400, ApiBody.errInvalidParam⟩ ∧
    lambda_handler ⟨some [(("destination_station_index".toList), ("xyz".toList))]⟩ [] [] =
      ⟨400, ApiBody.errInvalidParam⟩ := by
  refine ⟨?_, ?_, ?_⟩
  · exact (C10_defaults [] [] []).2.2.1 rfl
  · exact (C10_defaults [(("source_station_index".toList), ("abc".toList))] [] []).2.2.2.2.2.1
      ("abc".toList) rfl rfl
  · exact (C10_defaults [(("destination_station_index".toList), ("xyz".toList))] [] []).2.2.2.2.2.2
      ("xyz".toList) rfl rfl

/-! ## C5: meridiem inference -/

theorem getD_eq_getElem_of_lt {α : Type _} {l : List α} {k : Nat} (h : k < l.length) (d : α) :
    l.getD k d = l[k] := by
  rw [List.getD_eq_getElem?_getD, List.getElem?_eq_getElem h]
  rfl

/-- "Column `k` is a usable meridiem reference": stripped, non-empty,
not `CLOSED`, and a fully qualified time. -/
def qualAt (cols : List Str) (k : Nat) : Bool :=
  qualCandidate (pyStrip (cols.getD k []))

theorem findPrevQual_eq_some {cols : List Str} {i j : Nat} (hj : j < i)
    (hjl : j < cols.length) (hq : qualAt cols j = true)
    (hmiss : ∀ k, j < k → k < i → qualAt cols k = false) :
    findPrevQual cols i = some (pyStrip (cols.getD j [])) := by
  unfold findPrevQual
  have h1 : (cols.take i).take (j + 1) = cols.take (j + 1) := by
    rw [List.take_take]
    congr 1
    omega
  have h2 : cols.take (j + 1) = cols.take j ++ [cols[j]] := by
    rw [List.take_succ, List.getElem?_eq_getElem hjl]
    rfl
  have hdec : cols.take i = (cols.take j ++ [cols[j]]) ++ (cols.take i).drop (j + 1) := by
    conv_lhs => rw [← List.take_append_drop (j + 1) (cols.take i)]
    rw [h1, h2]
  rw [hdec, List.reverse_append, List.reverse_append, List.map_append, List.map_append]
  simp only [List.reverse_cons, List.reverse_nil, List.nil_append, List.map_cons,
    List.map_nil, List.cons_append, List.nil_append, List.append_assoc]
  rw [List.find?_append]
  have hpre : (((cols.take i).drop (j + 1)).reverse.map pyStrip).find? qualCandidate =
      none := by
    rw [List.find?_eq_none]
    intro y hy
    obtain ⟨b, hb, rfl⟩ := List.mem_map.mp hy
    rw [List.mem_reverse] at hb
    obtain ⟨m, hm, rfl⟩ := List.mem_iff_getElem.mp hb
    have hmlen := hm
    rw [List.length_drop, List.length_take] at hmlen
    have hlt : j + 1 + m < i := by omega
    have hltl : j + 1 + m < cols.length := by omega
    rw [List.getElem_drop, List.getElem_take]
    have := hmiss (j + 1 + m) (by omega) hlt
    rw [qualAt, getD_eq_getElem_of_lt hltl] at this
    simpa using this
  rw [hpre]
  simp only [Option.none_or]
  rw [List.find?_cons_of_pos]
  · rw [getD_eq_getElem_of_lt hjl]
  · rw [qualAt, getD_eq_getElem_of_lt hjl] at hq
    exact hq

theorem findPrevQual_eq_none {cols : List Str} {i : Nat}
    (hmiss : ∀ k, k < i → qualAt cols k = false) :
    findPrevQual cols i = none := by
  unfold findPrevQual
  rw [List.find?_eq_none]
  intro y hy
  obtain ⟨b, hb, rfl⟩ := List.mem_map.mp hy
  rw [List.mem_reverse] at hb
  obtain ⟨m, hm, rfl⟩ := List.mem_iff_getElem.mp hb
  have hmlen := hm
  rw [List.length_take] at hmlen
  have hltl : m < cols.length := by omega
  rw [List.getElem_take]
  have := hmiss m (by omega)
  rw [qualAt, getD_eq_getElem_of_lt hltl] at this
  simpa using this

theorem findNextQual_eq_some {cols : List Str} {i j : Nat} (hij : i < j)
    (hjl : j < cols.length) (hq : qualAt cols j = true)
    (hmiss : ∀ k, i < k → k < j → qualAt cols k = false) :
    findNextQual cols i = some (pyStrip (cols.getD j [])) := by
  unfold findNextQual
  have hdec : cols.drop (i + 1) =
      (cols.drop (i + 1)).take (j - (i + 1)) ++ cols[j] :: cols.drop (j + 1) := by
    conv_lhs => rw [← List.take_append_drop (j - (i + 1)) (cols.drop (i + 1))]
    rw [List.drop_drop]
    have hj' : i + 1 + (j - (i + 1)) = j := by omega
    rw [hj', List.drop_eq_getElem_cons hjl]
  rw [hdec, List.map_append, List.map_cons, getD_eq_getElem_of_lt hjl]
  apply find?_append_first
  · intro y hy
    obtain ⟨b, hb, rfl⟩ := List.mem_map.mp hy
    obtain ⟨m, hm, rfl⟩ := List.mem_iff_getElem.mp hb
    have hmlen := hm
    rw [List.length_take, List.length_drop] at hmlen
    have hlt : i + 1 + m < j := by omega
    have hltl : i + 1 + m < cols.length := by omega
    rw [List.getElem_take, List.getElem_drop]
    have := hmiss (i + 1 + m) (by omega) hlt
    rw [qualAt, getD_eq_getElem_of_lt hltl] at this
    simpa using this
  · rw [qualAt, getD_eq_getElem_of_lt hjl] at hq
    exact hq

theorem findNextQual_eq_none {cols : List Str} {i : Nat}
    (hmiss : ∀ k, i < k → k < cols.length → qualAt cols k = false) :
    findNextQual cols i = none := by
  unfold findNextQual
  rw [List.find?_eq_none]
  intro y hy
  obtain ⟨b, hb, rfl⟩ := List.mem_map.mp hy
  obtain ⟨m, hm, rfl⟩ := List.mem_iff_getElem.mp hb
  have hmlen := hm
  rw [List.length_drop] at hmlen
  have hltl : i + 1 + m < cols.length := by omega
  rw [List.getElem_drop]
  have := hmiss (i + 1 + m) (by omega) hltl
  rw [qualAt, getD_eq_getElem_of_lt hltl] at this
  simpa using this

/-- C5: characterization of `_infer_am_pm_suffix`.  (1) When a nearest
prior qualified field exists at position `j` (`j < i`, qualified, nothing
qualified strictly between), the bare field receives that field's
meridiem exactly when its hour is ≥ the prior hour or (prior − bare) ≤ 2,
and the flipped meridiem otherwise.  (2) When no prior reference exists
and the nearest later qualified field is at position `j`, the symmetric
rule applies (same meridiem iff bare ≤ next or (bare − next) ≤ 2).
(3) When no reference exists in either direction, the result is `A` iff
the bare hour is ≤ 11. -/
theorem C5_inference (cols : List Str) (i : Nat) :
    (∀ j, j < i → j < cols.length → qualAt cols j = true →
      (∀ k, j < k → k < i → qualAt cols k = false) →
      infer_am_pm_suffix cols i =
        (if hourOf (pyStrip (cols.getD i [])) ≥ hourOf (pyStrip (cols.getD j [])).dropLast ∨
            hourOf (pyStrip (cols.getD j [])).dropLast -
              hourOf (pyStrip (cols.getD i [])) ≤ 2
         then (pyStrip (cols.getD j [])).getLast?.getD 'A'
         else if (pyStrip (cols.getD j [])).getLast?.getD 'A' = 'A' then 'P' else 'A')) ∧
    (∀ j, i < j → j < cols.length → (∀ k, k < i → qualAt cols k = false) →
      qualAt cols j = true → (∀ k, i < k → k < j → qualAt cols k = false) →
      infer_am_pm_suffix cols i =
        (if hourOf (pyStrip (cols.getD i [])) ≤ hourOf (pyStrip (cols.getD j [])).dropLast ∨
            hourOf (pyStrip (cols.getD i [])) -
              hourOf (pyStrip (cols.getD j [])).dropLast ≤ 2
         then (pyStrip (cols.getD j [])).getLast?.getD 'A'
         else if (pyStrip (cols.getD j [])).getLast?.getD 'A' = 'P' then 'A' else 'P')) ∧
    ((∀ k, k < cols.length → k ≠ i → qualAt cols k = false) →
      infer_am_pm_suffix cols i =
        (if hourOf (pyStrip (cols.getD i [])) ≤ 11 then 'A' else 'P')) := by
  refine ⟨?_, ?_, ?_⟩
  · intro j hji hjl hq hmiss
    unfold infer_am_pm_suffix
    rw [findPrevQual_eq_some hji hjl hq hmiss]
  · intro j hij hjl hprev hq hmiss
    unfold infer_am_pm_suffix
    rw [findPrevQual_eq_none (fun k hk => hprev k hk),
      findNextQual_eq_some hij hjl hq hmiss]
  · intro hmiss
    unfold infer_am_pm_suffix
    rw [findPrevQual_eq_none (fun k hk => by
        by_cases hkl : k < cols.length
        · exact hmiss k hkl (by omega)
        · rw [qualAt, List.getD_eq_getElem?_getD, List.getElem?_eq_none (by omega)]
          rfl),
      findNextQual_eq_none (fun k hk hkl => hmiss k hkl (by omega))]

/-- C5 witness: the claim's example — bare `7:05` at position 3 with
`6:58A` at position 2 and `7:30P` at position 4 — receives meridiem `A`
via the backward rule of the characterization theorem. -/
theorem C5_inference_witness :
    infer_am_pm_suffix
      (["6:15A", "6:30A", "6:58A", "7:05", "7:30P"].map String.toList) 3 = 'A' := by
  have h := (C5_inference (["6:15A", "6:30A", "6:58A", "7:05", "7:30P"].map String.toList)
    3).1 2 (by omega) (by decide) (by decide) (fun k hk1 hk2 => by omega)
  rw [h]
  decide

/-! ## C1: point-to-point query on a trip set -/

theorem segmentsOfRow_sorted (tid : Nat) (st : List Str) (row : List Str) :
    List.Sorted segLe (segmentsOfRow tid st row) := by
  unfold segmentsOfRow List.Sorted
  rw [List.pairwise_map]
  exact (List.pairwise_lt_range _).imp (fun h => Nat.le_of_lt h)

theorem tripIdsInOrder_const {items : List Segment} {t : Nat}
    (hne : items ≠ []) (hall : ∀ g ∈ items, g.trip_id = t) :
    tripIdsInOrder items = [t] := by
  have haux : ∀ (l : List Segment), (∀ x ∈ l, x.trip_id = t) →
      l.foldl (fun acc it => if it.trip_id ∈ acc then acc else acc ++ [it.trip_id]) [t] =
        [t] := by
    intro l
    induction l with
    | nil => intro _; rfl
    | cons x xs ih =>
      intro hx
      simp only [List.foldl_cons, hx x (List.mem_cons_self _ _)]
      rw [if_pos (by simp)]
      exact ih (fun y hy => hx y (List.mem_cons_of_mem _ hy))
  unfold tripIdsInOrder
  match items with
  | [] => exact absurd rfl hne
  | g :: rest =>
    have hg : g.trip_id = t := hall g (List.mem_cons_self _ _)
    simp only [List.foldl_cons, hg]
    rw [if_neg (by simp), List.nil_append]
    exact haux rest (fun y hy => hall y (List.mem_cons_of_mem _ hy))

theorem stations_west_ne_nil : ∀ k, k < 14 → PATCO_STATIONS_WESTBOUND.getD k [] ≠ [] := by
  decide

theorem find_src_segments (row st : List Str) (tid s : Nat) (hs : s < row.length - 1) :
    (segmentsOfRow tid st row).find? (srcPred s) =
      (if (!(pyStrip (row.getD s []) == closedTok) &&
           !(pyStrip (row.getD (s + 1) []) == closedTok)) = true
       then some (segAt tid st row s) else none) := by
  unfold segmentsOfRow
  rw [find?_map_range_eq (segAt tid st row) (srcPred s) (row.length - 1) s hs ?hmiss]
  case hmiss =>
    intro m hm
    simp [srcPred, segAt, hm]
  have hproj : srcPred s (segAt tid st row s) =
      (!(pyStrip (row.getD s []) == closedTok) &&
       !(pyStrip (row.getD (s + 1) []) == closedTok)) := by
    simp only [srcPred, segAt]
    cases hA : (pyStrip (row.getD s []) == closedTok) <;>
      cases hB : (pyStrip (row.getD (s + 1) []) == closedTok) <;> simp [hA, hB]
  rw [hproj]

theorem find_dst_segments (row st : List Str) (tid e : Nat) (he : e < row.length - 1) :
    (segmentsOfRow tid st row).find? (dstPred (e + 1)) =
      (if (!(pyStrip (row.getD e []) == closedTok) &&
           !(pyStrip (row.getD (e + 1) []) == closedTok)) = true
       then some (segAt tid st row e) else none) := by
  unfold segmentsOfRow
  rw [find?_map_range_eq (segAt tid st row) (dstPred (e + 1)) (row.length - 1) e he ?hmiss]
  case hmiss =>
    intro m hm
    have : (m + 1 == e + 1) = false := by
      simp only [beq_eq_false_iff_ne, ne_eq]
      omega
    simp [dstPred, segAt, this]
  have hproj : dstPred (e + 1) (segAt tid st row e) =
      (!(pyStrip (row.getD e []) == closedTok) &&
       !(pyStrip (row.getD (e + 1) []) == closedTok)) := by
    simp only [dstPred, segAt]
    cases hA : (pyStrip (row.getD e []) == closedTok) <;>
      cases hB : (pyStrip (row.getD (e + 1) []) == closedTok) <;> simp [hA, hB]
  rw [hproj]

/-- C1 (amended): for a westbound query `s < d ≤ 13` on a trip set built
from a single full (14-field, no blank fields) CSV row, the trip is
excluded whenever its time at `s` or at `d` is CLOSED, but — because the
stored segment model marks a segment valid only when *both* endpoint
stations are open — the trip contributes its single result entry
`{departure = row[s], arrival = row[d]}` if and only if the times at
`s`, `s + 1`, `d − 1` and `d` are all non-CLOSED: a CLOSED value at the
intermediate station adjacent to the source or destination also excludes
the trip, contrary to the original claim. -/
theorem C1_amended (row : List Str) (s d : Nat)
    (hlen : row.length = 14) (hne : ∀ f ∈ row, pyStrip f ≠ [])
    (hsd : s < d) (hd13 : d ≤ 13) :
    query_trips_between_stations (segmentsOfRow 1 PATCO_STATIONS_WESTBOUND row)
        s d Direction.westbound =
      (if pyStrip (row.getD s []) ≠ closedTok ∧ pyStrip (row.getD (s + 1) []) ≠ closedTok ∧
          pyStrip (row.getD (d - 1) []) ≠ closedTok ∧ pyStrip (row.getD d []) ≠ closedTok
       then [{ departure_time := pyStrip (row.getD s [])
               arrival_time := pyStrip (row.getD d [])
               source_station := PATCO_STATIONS_WESTBOUND.getD s []
               destination_station := PATCO_STATIONS_WESTBOUND.getD d []
               trip_id := 1
               direction := Direction.westbound }]
       else []) := by
  obtain ⟨e, rfl⟩ : ∃ e, d = e + 1 := ⟨d - 1, by omega⟩
  simp only [Nat.add_sub_cancel]
  have hall : ∀ g ∈ segmentsOfRow 1 PATCO_STATIONS_WESTBOUND row, g.trip_id = 1 := by
    intro g hg
    obtain ⟨i, _, rfl⟩ := List.mem_map.mp hg
    rfl
  have hitems_ne : segmentsOfRow 1 PATCO_STATIONS_WESTBOUND row ≠ [] := by
    unfold segmentsOfRow
    rw [hlen]
    simp
  have hids := tripIdsInOrder_const hitems_ne hall
  have hfilter : (segmentsOfRow 1 PATCO_STATIONS_WESTBOUND row).filter
      (fun g => g.trip_id == 1) = segmentsOfRow 1 PATCO_STATIONS_WESTBOUND row := by
    rw [List.filter_eq_self]
    intro g hg
    simp [hall g hg]
  have hsorted : List.insertionSort segLe (segmentsOfRow 1 PATCO_STATIONS_WESTBOUND row) =
      segmentsOfRow 1 PATCO_STATIONS_WESTBOUND row :=
    (segmentsOfRow_sorted 1 PATCO_STATIONS_WESTBOUND row).insertionSort_eq
  have hfs := find_src_segments row PATCO_STATIONS_WESTBOUND 1 s (by omega)
  have hfd := find_dst_segments row PATCO_STATIONS_WESTBOUND 1 e (by omega)
  unfold query_trips_between_stations collect_valid_trips
  rw [hids]
  rw [List.filterMap_cons]
  unfold tripResult
  rw [hfilter, hsorted]
  simp only [hfs, hfd]
  by_cases hsrc : (!(pyStrip (row.getD s []) == closedTok) &&
      !(pyStrip (row.getD (s + 1) []) == closedTok)) = true
  · rw [if_pos hsrc]
    by_cases hdst : (!(pyStrip (row.getD e []) == closedTok) &&
        !(pyStrip (row.getD (e + 1) []) == closedTok)) = true
    · rw [if_pos hdst]
      simp only [Bool.and_eq_true, Bool.not_eq_true', beq_eq_false_iff_ne, ne_eq] at hsrc hdst
      have hmem : ∀ k, k < 14 → row.getD k [] ∈ row := by
        intro k hk
        rw [getD_eq_getElem_of_lt (by omega)]
        exact List.getElem_mem _
      have htruthy : pyStrip (row.getD s []) ≠ [] ∧ pyStrip (row.getD (e + 1) []) ≠ [] ∧
          PATCO_STATIONS_WESTBOUND.getD s [] ≠ [] ∧
          PATCO_STATIONS_WESTBOUND.getD (e + 1) [] ≠ [] := by
        refine ⟨hne _ (hmem s (by omega)), hne _ (hmem (e + 1) (by omega)),
          stations_west_ne_nil s (by omega), stations_west_ne_nil (e + 1) (by omega)⟩
      simp only [segAt]
      rw [if_pos htruthy, if_pos (Or.inl ⟨trivial, hsd⟩)]
      rw [if_pos ⟨hsrc.1, hsrc.2, hdst.1, hdst.2⟩]
      rfl
    · rw [if_neg hdst]
      simp only [Bool.and_eq_true, Bool.not_eq_true', beq_eq_false_iff_ne, ne_eq,
        not_and] at hdst
      have hRhs : ¬(¬pyStrip (row.getD s []) = closedTok ∧
          ¬pyStrip (row.getD (s + 1) []) = closedTok ∧
          ¬pyStrip (row.getD e []) = closedTok ∧
          ¬pyStrip (row.getD (e + 1) []) = closedTok) := by
        rintro ⟨h1, h2, h3, h4⟩
        by_cases he : pyStrip (row.getD e []) = closedTok
        · exact h3 he
        · exact (hdst he) h4
      rw [if_neg hRhs]
      rfl
  · rw [if_neg hsrc]
    simp only [Bool.and_eq_true, Bool.not_eq_true', beq_eq_false_iff_ne, ne_eq,
      not_and] at hsrc
    have hRhs : ¬(¬pyStrip (row.getD s []) = closedTok ∧
        ¬pyStrip (row.getD (s + 1) []) = closedTok ∧
        ¬pyStrip (row.getD e []) = closedTok ∧
        ¬pyStrip (row.getD (e + 1) []) = closedTok) := by
      rintro ⟨h1, h2, h3, h4⟩
      exact (hsrc h1) h2
    rw [if_neg hRhs]
    rfl

/-- C1 (counterexample): the claim's own example — the Westbound row
`6:15A,6:22A,6:30A,CLOSED,6:45A,...` queried with sourceIndex 0 and
destIndex 4 — yields the empty result, not one entry with departure
6:15A and arrival 6:45A: the CLOSED value at intermediate station 3
invalidates the stored segment (3,4), so no arrival is found for
destination 4. -/
theorem C1_counterexample :
    query_trips_between_stations
      (process_csv_to_dynamodb
        ("6:15A,6:22A,6:30A,CLOSED,6:45A,6:50A,6:52A,6:54A,6:56A,6:58A,7:00A,7:02A,7:04A,7:06A".toList)
        PATCO_STATIONS_WESTBOUND)
      0 4 Direction.westbound = [] := by
  rfl

/-- C1 witness: the amended theorem applied to that same row (as a
one-trip set built by `segAt`): the query 0→4 returns no entry because
station 3 (the destination's neighbour) is CLOSED, while the query 0→2
returns exactly one entry. -/
theorem C1_amended_witness :
    query_trips_between_stations
      (segmentsOfRow 1 PATCO_STATIONS_WESTBOUND
        (splitCommas
          ("6:15A,6:22A,6:30A,CLOSED,6:45A,6:50A,6:52A,6:54A,6:56A,6:58A,7:00A,7:02A,7:04A,7:06A".toList)))
      0 4 Direction.westbound = [] ∧
    (query_trips_between_stations
      (segmentsOfRow 1 PATCO_STATIONS_WESTBOUND
        (splitCommas
          ("6:15A,6:22A,6:30A,CLOSED,6:45A,6:50A,6:52A,6:54A,6:56A,6:58A,7:00A,7:02A,7:04A,7:06A".toList)))
      0 2 Direction.westbound).length = 1 := by
  constructor
  · rw [C1_amended _ 0 4 (by decide) (by decide) (by omega) (by omega)]
    rw [if_neg (by decide)]
  · rw [C1_amended _ 0 2 (by decide) (by decide) (by omega) (by omega)]
    rw [if_pos (by decide)]
    rfl

/-! ## C2: departure-time sort -/

theorem filter_key_orderedInsert (c : Int) (x : TripEntry) (l : List TripEntry) :
    (List.orderedInsert depLe x l).filter (fun e => depKey e == c) =
      if depKey x == c then x :: l.filter (fun e => depKey e == c)
      else l.filter (fun e => depKey e == c) := by
  rw [List.orderedInsert_eq_take_drop, List.filter_append, List.filter_cons]
  have hsplit : l.filter (fun e => depKey e == c) =
      (l.takeWhile fun b => decide (¬ depLe x b)).filter (fun e => depKey e == c) ++
      (l.dropWhile fun b => decide (¬ depLe x b)).filter (fun e => depKey e == c) := by
    rw [← List.filter_append, List.takeWhile_append_dropWhile]
  by_cases hx : (depKey x == c) = true
  · rw [if_pos hx, if_pos hx]
    have htw : (l.takeWhile fun b => decide (¬ depLe x b)).filter
        (fun e => depKey e == c) = [] := by
      rw [List.filter_eq_nil_iff]
      intro b hb
      have hle := List.mem_takeWhile_imp hb
      simp only [decide_eq_true_eq] at hle
      have hxc : depKey x = c := by simpa using hx
      have hlt : depKey b < depKey x := by
        by_contra hge
        exact hle (show depLe x b by unfold depLe; omega)
      simp only [beq_iff_eq]
      omega
    rw [htw, hsplit, htw]
    try simp
  · rw [if_neg hx, if_neg hx]
    try exact hsplit.symm

theorem filter_key_insertionSort (c : Int) (l : List TripEntry) :
    (List.insertionSort depLe l).filter (fun e => depKey e == c) =
      l.filter (fun e => depKey e == c) := by
  induction l with
  | nil => rfl
  | cons x xs ih =>
    rw [List.insertionSort, filter_key_orderedInsert, ih, List.filter_cons]

/-- `int(c)` for one digit character. -/
def digitVal (c : Char) : Nat := c.toNat - 48

theorem digit_not_space {c : Char} (h : c.isDigit = true) : isPySpace c = false := by
  by_contra hsp
  simp only [Bool.not_eq_false] at hsp
  simp only [isPySpace, Bool.or_eq_true, beq_iff_eq] at hsp
  have hcases : c = ' ' ∨ c = '\t' ∨ c = '\n' ∨ c = '\x0d' ∨ c = '\x0b' ∨ c = '\x0c' := by
    tauto
  rcases hcases with rfl | rfl | rfl | rfl | rfl | rfl <;> exact absurd h (by decide)

theorem digit_ne {c : Char} (x : Char) (h : c.isDigit = true) (hx : x.isDigit = false) :
    (c == x) = false := by
  rw [beq_eq_false_iff_ne]
  intro heq
  subst heq
  rw [h] at hx
  cases hx

theorem digit_ne_prop {c : Char} (x : Char) (h : c.isDigit = true)
    (hx : x.isDigit = false) : ¬ c = x := by
  intro heq
  subst heq
  rw [h] at hx
  cases hx

theorem pyStrip_digits {l : Str} (hd : ∀ c ∈ l, c.isDigit = true) : pyStrip l = l :=
  pyStrip_noop (fun c hc => digit_not_space (hd c hc))

theorem pyDigitsGo_digits : ∀ (l : Str) (acc : Nat), (∀ c ∈ l, c.isDigit = true) →
    pyDigitsGo acc l = some (l.foldl (fun a c => a * 10 + digitVal c) acc) := by
  intro l
  induction l with
  | nil => intro acc _; rfl
  | cons c rest ih =>
    intro acc h
    have hc : c.isDigit = true := h c (List.mem_cons_self _ _)
    have hstep : pyDigitsGo acc (c :: rest) =
        pyDigitsGo (acc * 10 + (c.toNat - 48)) rest := by
      conv_lhs => rw [pyDigitsGo.eq_def]
      simp only [hc, if_pos]
    rw [hstep, ih _ (fun y hy => h y (List.mem_cons_of_mem _ hy))]
    rfl

theorem pythonInt_digits {l : Str} (hne : l ≠ []) (hd : ∀ c ∈ l, c.isDigit = true) :
    pythonInt l = some ((l.foldl (fun a c => a * 10 + digitVal c) 0 : Nat) : Int) := by
  unfold pythonInt
  rw [pyStrip_digits hd]
  match l with
  | [] => exact absurd rfl hne
  | c :: rest =>
    have hc : c.isDigit = true := hd c (List.mem_cons_self _ _)
    dsimp only
    rw [if_neg (by rw [digit_ne '+' hc (by decide)]; simp),
      if_neg (by rw [digit_ne '-' hc (by decide)]; simp)]
    unfold pyDigits
    dsimp only
    rw [if_pos hc, pyDigitsGo_digits _ _ hd]
    rfl

theorem splitOn_colon_pair {a m1 m2 : Char} (ha : a.isDigit = true)
    (hm1 : m1.isDigit = true) (hm2 : m2.isDigit = true) :
    ([a, ':', m1, m2] : Str).splitOn ':' = [[a], [m1, m2]] := by
  simp [List.splitOn, List.splitOnP_cons, digit_ne_prop ':' ha (by decide),
    digit_ne_prop ':' hm1 (by decide), digit_ne_prop ':' hm2 (by decide)]

theorem splitOn_colon_pair2 {a b m1 m2 : Char} (ha : a.isDigit = true)
    (hb : b.isDigit = true) (hm1 : m1.isDigit = true) (hm2 : m2.isDigit = true) :
    ([a, b, ':', m1, m2] : Str).splitOn ':' = [[a, b], [m1, m2]] := by
  simp [List.splitOn, List.splitOnP_cons, digit_ne_prop ':' ha (by decide),
    digit_ne_prop ':' hb (by decide), digit_ne_prop ':' hm1 (by decide),
    digit_ne_prop ':' hm2 (by decide)]

theorem convert_time_shape1 {a m1 m2 x : Char} (ha : a.isDigit = true)
    (hm1 : m1.isDigit = true) (hm2 : m2.isDigit = true) (hx : x = 'A' ∨ x = 'P') :
    convert_time_to_sortable [a, ':', m1, m2, x] =
      convHourTo24 ((digitVal a : Nat) : Int) x * 60 +
        ((10 * digitVal m1 + digitVal m2 : Nat) : Int) := by
  unfold convert_time_to_sortable
  rw [if_neg ?hnc]
  case hnc =>
    simp only [Bool.or_eq_true, beq_iff_eq]
    rintro (hcl | hnil)
    · rw [show closedTok = ['C', 'L', 'O', 'S', 'E', 'D'] from rfl] at hcl
      simp only [List.cons.injEq] at hcl
      obtain ⟨rfl, -⟩ := hcl
      exact absurd ha (by decide)
    · simp at hnil
  simp only [List.getLast?_cons_cons, List.getLast?_singleton]
  rw [if_pos (by rcases hx with rfl | rfl <;> simp)]
  simp only [List.dropLast_cons₂, List.dropLast_single]
  rw [if_pos (by simp), splitOn_colon_pair ha hm1 hm2]
  dsimp only
  rw [pythonInt_digits (by simp) (by
      intro c hc
      simp only [List.mem_singleton] at hc
      rwa [hc]),
    pythonInt_digits (by simp) (by
      intro c hc
      simp only [List.mem_cons, List.not_mem_nil, or_false] at hc
      rcases hc with rfl | rfl <;> assumption)]
  simp only [List.foldl]
  have h1 : 0 * 10 + digitVal a = digitVal a := by omega
  have h2 : (0 * 10 + digitVal m1) * 10 + digitVal m2 =
      10 * digitVal m1 + digitVal m2 := by ring
  rw [h1, h2]

theorem convert_time_shape2 {a b m1 m2 x : Char} (ha : a.isDigit = true)
    (hb : b.isDigit = true) (hm1 : m1.isDigit = true) (hm2 : m2.isDigit = true)
    (hx : x = 'A' ∨ x = 'P') :
    convert_time_to_sortable [a, b, ':', m1, m2, x] =
      convHourTo24 ((10 * digitVal a + digitVal b : Nat) : Int) x * 60 +
        ((10 * digitVal m1 + digitVal m2 : Nat) : Int) := by
  unfold convert_time_to_sortable
  rw [if_neg ?hnc]
  case hnc =>
    simp only [Bool.or_eq_true, beq_iff_eq]
    rintro (hcl | hnil)
    · rw [show closedTok = ['C', 'L', 'O', 'S', 'E', 'D'] from rfl] at hcl
      simp only [List.cons.injEq] at hcl
      obtain ⟨rfl, -⟩ := hcl
      exact absurd ha (by decide)
    · simp at hnil
  simp only [List.getLast?_cons_cons, List.getLast?_singleton]
  rw [if_pos (by rcases hx with rfl | rfl <;> simp)]
  simp only [List.dropLast_cons₂, List.dropLast_single]
  rw [if_pos (by simp), splitOn_colon_pair2 ha hb hm1 hm2]
  dsimp only
  rw [pythonInt_digits (by simp) (by
      intro c hc
      simp only [List.mem_cons, List.not_mem_nil, or_false] at hc
      rcases hc with rfl | rfl <;> assumption),
    pythonInt_digits (by simp) (by
      intro c hc
      simp only [List.mem_cons, List.not_mem_nil, or_false] at hc
      rcases hc with rfl | rfl <;> assumption)]
  simp only [List.foldl]
  have h1 : (0 * 10 + digitVal a) * 10 + digitVal b = 10 * digitVal a + digitVal b := by
    ring
  have h2 : (0 * 10 + digitVal m1) * 10 + digitVal m2 =
      10 * digitVal m1 + digitVal m2 := by ring
  rw [h1, h2]

theorem digitVal_le_nine {c : Char} (h : c.isDigit = true) : digitVal c ≤ 9 := by
  simp only [Char.isDigit, Bool.and_eq_true, decide_eq_true_eq] at h
  have h2 : c.val.toNat ≤ 57 := by exact_mod_cast h.2
  unfold digitVal Char.toNat
  omega

theorem convHourTo24_le (h : Int) (ap : Char) (h0 : 0 ≤ h) :
    convHourTo24 h ap ≤ h + 12 := by
  unfold convHourTo24
  split_ifs <;> omega

theorem convert_qual_lt {t : Str} (h : isQualTime t = true) :
    convert_time_to_sortable t < 9999 := by
  unfold isQualTime at h
  split at h
  · rename_i a c m1 m2 x
    simp only [Bool.and_eq_true, Bool.or_eq_true, beq_iff_eq] at h
    obtain ⟨⟨⟨⟨ha, hc⟩, hm1⟩, hm2⟩, hx⟩ := h
    subst hc
    rw [convert_time_shape1 ha hm1 hm2 hx]
    have b1 : digitVal a ≤ 9 := digitVal_le_nine ha
    have b2 : digitVal m1 ≤ 9 := digitVal_le_nine hm1
    have b3 : digitVal m2 ≤ 9 := digitVal_le_nine hm2
    have hb := convHourTo24_le ((digitVal a : Nat) : Int) x (by positivity)
    omega
  · rename_i a b c m1 m2 x
    simp only [Bool.and_eq_true, Bool.or_eq_true, beq_iff_eq] at h
    obtain ⟨⟨⟨⟨⟨ha, hb'⟩, hc⟩, hm1⟩, hm2⟩, hx⟩ := h
    subst hc
    rw [convert_time_shape2 ha hb' hm1 hm2 hx]
    have b1 : digitVal a ≤ 9 := digitVal_le_nine ha
    have b2 : digitVal b ≤ 9 := digitVal_le_nine hb'
    have b3 : digitVal m1 ≤ 9 := digitVal_le_nine hm1
    have b4 : digitVal m2 ≤ 9 := digitVal_le_nine hm2
    have hb := convHourTo24_le ((10 * digitVal a + digitVal b : Nat) : Int) x (by positivity)
    omega
  · exact absurd h (by simp)

/-- C2 (amended): the query result is sorted ascending by
`convert_time_to_sortable` of the departure time, stably (elements of
equal key keep their pre-sort — i.e. trip — order); grammar-valid times
`H:MM[AP]` convert meridiem-aware with 12 AM → hour 0 and 12 PM →
hour 12, and their keys are strictly below the 9999 sentinel that
`CLOSED`, empty, suffix-less, or `int()`-unparseable entries receive.
However, the failure condition is Python's `int()` parse, NOT the
`H:MM` grammar: strings such as `"+1:30A"` parse and receive ordinary
keys, so they may sort before grammar-valid entries (see the
counterexample). -/
theorem C2_amended :
    (∀ (items : List Segment) (s d : Nat) (dir : Direction),
      List.Sorted depLe (query_trips_between_stations items s d dir)) ∧
    (∀ (items : List Segment) (s d : Nat) (dir : Direction) (c : Int),
      (query_trips_between_stations items s d dir).filter (fun e => depKey e == c) =
        (collect_valid_trips items s d dir).filter (fun e => depKey e == c)) ∧
    (∀ t : Str, isQualTime t = true → convert_time_to_sortable t < 9999) ∧
    (convert_time_to_sortable ("12:00A".toList) = 0 ∧
      convert_time_to_sortable ("12:00P".toList) = 720 ∧
      convert_time_to_sortable ("CLOSED".toList) = 9999 ∧
      convert_time_to_sortable ("7:05".toList) = 9999 ∧
      convert_time_to_sortable [] = 9999) ∧
    (∀ a m1 m2 x : Char, a.isDigit = true → m1.isDigit = true → m2.isDigit = true →
      (x = 'A' ∨ x = 'P') →
      convert_time_to_sortable [a, ':', m1, m2, x] =
        convHourTo24 ((digitVal a : Nat) : Int) x * 60 +
          ((10 * digitVal m1 + digitVal m2 : Nat) : Int)) ∧
    (∀ a b m1 m2 x : Char, a.isDigit = true → b.isDigit = true → m1.isDigit = true →
      m2.isDigit = true → (x = 'A' ∨ x = 'P') →
      convert_time_to_sortable [a, b, ':', m1, m2, x] =
        convHourTo24 ((10 * digitVal a + digitVal b : Nat) : Int) x * 60 +
          ((10 * digitVal m1 + digitVal m2 : Nat) : Int)) ∧
    (∀ h : Int, h ≠ 12 → convHourTo24 h 'A' = h ∧ convHourTo24 h 'P' = h + 12) ∧
    (convHourTo24 12 'A' = 0 ∧ convHourTo24 12 'P' = 12) := by
  refine ⟨?_, ?_, ?_, ⟨by decide, by decide, by decide, by decide, by decide⟩,
    ?_, ?_, ?_, ⟨by decide, by decide⟩⟩
  · intro items s d dir
    exact List.sorted_insertionSort depLe _
  · intro items s d dir c
    exact filter_key_insertionSort c _
  · intro t h
    exact convert_qual_lt h
  · intro a m1 m2 x ha hm1 hm2 hx
    exact convert_time_shape1 ha hm1 hm2 hx
  · intro a b m1 m2 x ha hb hm1 hm2 hx
    exact convert_time_shape2 ha hb hm1 hm2 hx
  · intro h hne
    constructor
    · unfold convHourTo24
      rw [if_neg (by simp), if_neg (by simp [hne])]
    · unfold convHourTo24
      rw [if_pos ⟨rfl, hne⟩]

/-- The two-trip westbound table used to refute C2's sentinel clause:
the second trip's departure string `+1:30A` fails the `H:MM` grammar but
is accepted by Python's `int()`. -/
def c2Items : List Segment :=
  process_csv_to_dynamodb ("6:30A,6:35A\n+1:30A,1:40A".toList) PATCO_STATIONS_WESTBOUND

/-- C2 (counterexample): `+1:30A` does not parse as a time of the form
H:MM followed by A or P, yet it receives sort key 90 — not a sentinel
larger than every valid key — and therefore sorts *before* the valid
entry `6:30A` (key 390) in the query result, contradicting the claim
that such entries sort after all valid entries. -/
theorem C2_counterexample :
    (query_trips_between_stations c2Items 0 1 Direction.westbound).map
        (fun e => e.departure_time) =
      [("+1:30A".toList), ("6:30A".toList)] ∧
    isQualTime ("+1:30A".toList) = false ∧
    convert_time_to_sortable ("+1:30A".toList) = 90 ∧
    convert_time_to_sortable ("6:30A".toList) = 390 := by
  refine ⟨rfl, rfl, rfl, rfl⟩

/-- C2 witness: the amended theorem applied at concrete inputs — the
concrete query result is sorted, a grammar-valid time's key is below the
sentinel, and the meridiem conversion maps 7 PM to hour 19. -/
theorem C2_amended_witness :
    List.Sorted depLe (query_trips_between_stations c2Items 0 1 Direction.westbound) ∧
    convert_time_to_sortable ("6:30A".toList) < 9999 ∧
    convHourTo24 7 'P' = 19 := by
  refine ⟨C2_amended.1 c2Items 0 1 Direction.westbound,
    C2_amended.2.2.1 ("6:30A".toList) (by decide),
    (C2_amended.2.2.2.2.2.2.1 7 (by decide)).2⟩

/-! ## C6: idempotence of the normalizer -/

/-- A token of a well-formed normalized table: `CLOSED` or a fully
qualified time. -/
def isScheduleToken (t : Str) : Bool := t == closedTok || isQualTime t

/-- The cell sequence of a row after step 3 has added a comma behind
every time token: a time token is followed by an empty cell. -/
def paddedRow (r : List Str) : List Str :=
  r.flatMap (fun t => if isQualTime t then [t, []] else [t])

/-- One table row as emitted by step 3. -/
def step3Row (r : List Str) : Str := joinCommas (paddedRow r)

/-- A table of token rows rendered to the normalizer's output format. -/
def encodeTable (rows : List (List Str)) : Str := joinLines (rows.map joinCommas)

/-- The characters that can occur inside a schedule token. -/
def goodChar (c : Char) : Bool :=
  c.isDigit || c == ':' || c == 'A' || c == 'P' || c == 'C' || c == 'L' || c == 'O' ||
    c == 'S' || c == 'E' || c == 'D'

theorem qual_chars {t : Str} (h : isQualTime t = true) : ∀ c ∈ t, goodChar c = true := by
  intro c hc
  unfold isQualTime at h
  split at h
  · rename_i a cc m1 m2 x
    simp only [Bool.and_eq_true, Bool.or_eq_true, beq_iff_eq] at h
    obtain ⟨⟨⟨⟨ha, hcc⟩, hm1⟩, hm2⟩, hx⟩ := h
    simp only [List.mem_cons, List.not_mem_nil, or_false] at hc
    rcases hc with rfl | rfl | rfl | rfl | rfl
    · simp [goodChar, ha]
    · subst hcc; decide
    · simp [goodChar, hm1]
    · simp [goodChar, hm2]
    · rcases hx with rfl | rfl <;> decide
  · rename_i a b cc m1 m2 x
    simp only [Bool.and_eq_true, Bool.or_eq_true, beq_iff_eq] at h
    obtain ⟨⟨⟨⟨⟨ha, hb⟩, hcc⟩, hm1⟩, hm2⟩, hx⟩ := h
    simp only [List.mem_cons, List.not_mem_nil, or_false] at hc
    rcases hc with rfl | rfl | rfl | rfl | rfl | rfl
    · simp [goodChar, ha]
    · simp [goodChar, hb]
    · subst hcc; decide
    · simp [goodChar, hm1]
    · simp [goodChar, hm2]
    · rcases hx with rfl | rfl <;> decide
  · exact absurd h (by simp)

theorem token_chars {t : Str} (h : isScheduleToken t = true) :
    ∀ c ∈ t, goodChar c = true := by
  unfold isScheduleToken at h
  simp only [Bool.or_eq_true, beq_iff_eq] at h
  rcases h with rfl | h
  · intro c hc
    rw [show closedTok = ['C', 'L', 'O', 'S', 'E', 'D'] from rfl] at hc
    simp only [List.mem_cons, List.not_mem_nil, or_false] at hc
    rcases hc with rfl | rfl | rfl | rfl | rfl | rfl <;> decide
  · exact qual_chars h

theorem goodChar_facts {c : Char} (h : goodChar c = true) :
    isPySpace c = false ∧ allowedFilterChar c = true ∧ ¬c = '\n' ∧ ¬c = ',' ∧
    ¬c = '►' ∧ ¬c = 'à' ∧ ¬c = ' ' ∧ ¬c = '\t' := by
  unfold goodChar at h
  simp only [Bool.or_eq_true, beq_iff_eq] at h
  have hcases : c.isDigit = true ∨ c = ':' ∨ c = 'A' ∨ c = 'P' ∨ c = 'C' ∨ c = 'L' ∨
      c = 'O' ∨ c = 'S' ∨ c = 'E' ∨ c = 'D' := by tauto
  rcases hcases with hd | rfl | rfl | rfl | rfl | rfl | rfl | rfl | rfl | rfl
  · exact ⟨digit_not_space hd, by simp [allowedFilterChar, hd],
      digit_ne_prop '\n' hd (by decide), digit_ne_prop ',' hd (by decide),
      digit_ne_prop '►' hd (by decide), digit_ne_prop 'à' hd (by decide),
      digit_ne_prop ' ' hd (by decide), digit_ne_prop '\t' hd (by decide)⟩
  all_goals decide

theorem mem_joinLines {c : Char} : ∀ {ls : List Str}, c ∈ joinLines ls →
    c = '\n' ∨ ∃ l ∈ ls, c ∈ l := by
  intro ls
  induction ls with
  | nil => intro hc; simp [joinLines, List.intercalate] at hc
  | cons x xs ih =>
    intro hc
    rw [joinLines_cons] at hc
    by_cases hxs : xs = []
    · rw [if_pos hxs] at hc
      exact Or.inr ⟨x, List.mem_cons_self _ _, hc⟩
    · rw [if_neg hxs] at hc
      rcases List.mem_append.mp hc with h | h
      · exact Or.inr ⟨x, List.mem_cons_self _ _, h⟩
      · rcases List.mem_cons.mp h with rfl | h
        · exact Or.inl rfl
        · rcases ih h with h | ⟨l, hl, hcl⟩
          · exact Or.inl h
          · exact Or.inr ⟨l, List.mem_cons_of_mem _ hl, hcl⟩

theorem mem_joinCommas {c : Char} : ∀ {ls : List Str}, c ∈ joinCommas ls →
    c = ',' ∨ ∃ l ∈ ls, c ∈ l := by
  intro ls
  induction ls with
  | nil => intro hc; simp [joinCommas, List.intercalate] at hc
  | cons x xs ih =>
    intro hc
    rw [joinCommas_cons] at hc
    by_cases hxs : xs = []
    · rw [if_pos hxs] at hc
      exact Or.inr ⟨x, List.mem_cons_self _ _, hc⟩
    · rw [if_neg hxs] at hc
      rcases List.mem_append.mp hc with h | h
      · exact Or.inr ⟨x, List.mem_cons_self _ _, h⟩
      · rcases List.mem_cons.mp h with rfl | h
        · exact Or.inl rfl
        · rcases ih h with h | ⟨l, hl, hcl⟩
          · exact Or.inl h
          · exact Or.inr ⟨l, List.mem_cons_of_mem _ hl, hcl⟩

/-- Every character of an encoded well-formed table is a separator or a
good token character. -/
theorem encodeTable_chars {rows : List (List Str)}
    (htok : ∀ r ∈ rows, ∀ t ∈ r, isScheduleToken t = true) :
    ∀ c ∈ encodeTable rows, c = '\n' ∨ c = ',' ∨ goodChar c = true := by
  intro c hc
  rcases mem_joinLines hc with rfl | ⟨l, hl, hcl⟩
  · exact Or.inl rfl
  · obtain ⟨r, hr, rfl⟩ := List.mem_map.mp hl
    rcases mem_joinCommas hcl with rfl | ⟨t, ht, hct⟩
    · exact Or.inr (Or.inl rfl)
    · exact Or.inr (Or.inr (token_chars (htok r hr t ht) c hct))

theorem flatMap_id_of {l : Str} {f : Char → Str} (h : ∀ c ∈ l, f c = [c]) :
    l.flatMap f = l := by
  induction l with
  | nil => rfl
  | cons c cs ih =>
    rw [List.flatMap_cons, h c (List.mem_cons_self _ _),
      ih (fun y hy => h y (List.mem_cons_of_mem _ hy))]
    rfl

theorem replaceSpecialChars_noop {l : Str} (h : ∀ c ∈ l, ¬c = '►' ∧ ¬c = 'à') :
    replaceSpecialChars l = l := by
  unfold replaceSpecialChars
  rw [List.filter_eq_self.mpr (fun c hc => by simp [(h c hc).1])]
  exact flatMap_id_of (fun c hc => by simp [(h c hc).2])

theorem removeWhitespace_noop {l : Str} (h : ∀ c ∈ l, ¬c = ' ' ∧ ¬c = '\t') :
    removeWhitespace l = l := by
  unfold removeWhitespace
  rw [List.filter_eq_self.mpr (fun c hc => by simp [(h c hc).1, (h c hc).2])]

theorem colon_not_digit : (':'.isDigit) = false := by decide

theorem comma_not_digit : (','.isDigit) = false := by decide

theorem newline_not_digit : ('\n'.isDigit) = false := by decide

theorem closedTok_nondigit : ∀ c ∈ closedTok, c.isDigit = false := by
  intro c hc
  rw [show closedTok = ['C', 'L', 'O', 'S', 'E', 'D'] from rfl] at hc
  simp only [List.mem_cons, List.not_mem_nil, or_false] at hc
  rcases hc with rfl | rfl | rfl | rfl | rfl | rfl <;> decide

theorem token_cases {t : Str} (h : isScheduleToken t = true) :
    t = closedTok ∨ isQualTime t = true := by
  unfold isScheduleToken at h
  simp only [Bool.or_eq_true, beq_iff_eq] at h
  exact h

theorem qual_ne_nil {t : Str} (h : isQualTime t = true) : t ≠ [] := by
  unfold isQualTime at h
  split at h
  · simp_all
  · simp_all
  · exact absurd h (by simp)

theorem token_ne_nil {t : Str} (h : isScheduleToken t = true) : t ≠ [] := by
  rcases token_cases h with rfl | h
  · simp [closedTok]
  · exact qual_ne_nil h

/-- A fully qualified time token is matched whole, wherever it starts. -/
theorem timeMatch_qual {tok : Str} (h : isQualTime tok = true) (rest : Str) :
    timeMatch (tok ++ rest) = some (tok, rest) := by
  unfold isQualTime at h
  split at h
  · rename_i a cc m1 m2 x
    simp only [Bool.and_eq_true, Bool.or_eq_true, beq_iff_eq] at h
    obtain ⟨⟨⟨⟨ha, hcc⟩, hm1⟩, hm2⟩, hx⟩ := h
    subst hcc
    rcases hx with rfl | rfl <;>
      simp [timeMatch, timeSuffixMatch, ha, hm1, hm2, colon_not_digit]
  · rename_i a b cc m1 m2 x
    simp only [Bool.and_eq_true, Bool.or_eq_true, beq_iff_eq] at h
    obtain ⟨⟨⟨⟨⟨ha, hb⟩, hcc⟩, hm1⟩, hm2⟩, hx⟩ := h
    subst hcc
    rcases hx with rfl | rfl <;>
      simp [timeMatch, timeSuffixMatch, ha, hb, hm1, hm2]
  · exact absurd h (by simp)

theorem timeMatch_none_of_head {c : Char} (h : c.isDigit = false) (cs : Str) :
    timeMatch (c :: cs) = none := by
  simp [timeMatch, h]

theorem addCommas_cons_nondigit {c : Char} (h : c.isDigit = false) (cs : Str) :
    addCommasAfterTimes (c :: cs) = c :: addCommasAfterTimes cs := by
  unfold addCommasAfterTimes
  have hm := timeMatch_none_of_head h cs
  simp only [List.length_cons, addCommasGo, hm]

theorem addCommas_tok {tok : Str} (h : isQualTime tok = true) (rest : Str) :
    addCommasAfterTimes (tok ++ rest) = tok ++ ',' :: addCommasAfterTimes rest := by
  have hm := timeMatch_qual h rest
  match tok, qual_ne_nil h with
  | t0 :: tok', _ =>
    unfold addCommasAfterTimes
    rw [show (t0 :: tok') ++ rest = t0 :: (tok' ++ rest) from rfl] at hm
    simp only [List.cons_append, List.length_cons, addCommasGo, List.append_eq, hm]
    rw [addCommasGo_fuel_irrel (tok' ++ rest).length rest.length rest
      (by simp [List.length_append]) (le_refl _)]

theorem addCommas_nondigit_run {p : Str} (hp : ∀ c ∈ p, c.isDigit = false) :
    ∀ rest : Str, addCommasAfterTimes (p ++ rest) = p ++ addCommasAfterTimes rest := by
  induction p with
  | nil => intro rest; rfl
  | cons c cs ih =>
    intro rest
    rw [List.cons_append, addCommas_cons_nondigit (hp c (List.mem_cons_self _ _)),
      ih (fun y hy => hp y (List.mem_cons_of_mem _ hy)) rest, List.cons_append]

theorem paddedRow_cons (t : Str) (r : List Str) :
    paddedRow (t :: r) =
      (if isQualTime t then [t, ([] : Str)] else [t]) ++ paddedRow r := by
  simp [paddedRow]

theorem paddedRow_ne_nil {r : List Str} (h : r ≠ []) : paddedRow r ≠ [] := by
  match r with
  | t :: r' =>
    rw [paddedRow_cons]
    by_cases hq : isQualTime t = true <;> simp [hq]

/-- The step-3 scanner over one encoded row followed by arbitrary text. -/
theorem addCommas_row (rest : Str) : ∀ r : List Str, r ≠ [] →
    (∀ t ∈ r, isScheduleToken t = true) →
    addCommasAfterTimes (joinCommas r ++ rest) = step3Row r ++ addCommasAfterTimes rest := by
  intro r
  induction r with
  | nil => intro hne; exact absurd rfl hne
  | cons t r' ih =>
    intro _ htok
    have ht := htok t (List.mem_cons_self _ _)
    by_cases hr' : r' = []
    · subst hr'
      rw [joinCommas_cons, if_pos rfl]
      rcases token_cases ht with rfl | hq
      · rw [addCommas_nondigit_run closedTok_nondigit rest]
        rw [show step3Row [closedTok] = closedTok from rfl]
      · rw [addCommas_tok hq rest]
        have hpad : step3Row [t] = t ++ [','] := by
          simp [step3Row, paddedRow, hq, joinCommas, List.intercalate]
        rw [hpad, List.append_assoc]
        rfl
    · rw [joinCommas_cons, if_neg hr', List.append_assoc]
      have hih := ih hr' (fun y hy => htok y (List.mem_cons_of_mem _ hy))
      have hpadne : paddedRow r' ≠ [] := paddedRow_ne_nil hr'
      rcases token_cases ht with rfl | hq
      · rw [addCommas_nondigit_run closedTok_nondigit]
        rw [List.cons_append, addCommas_cons_nondigit comma_not_digit, hih]
        have hpad : step3Row (closedTok :: r') = closedTok ++ ',' :: step3Row r' := by
          rw [step3Row, paddedRow_cons, if_neg (by decide), List.singleton_append,
            joinCommas_cons, if_neg hpadne]
          rfl
        rw [hpad]
        simp
      · rw [addCommas_tok hq]
        rw [List.cons_append, addCommas_cons_nondigit comma_not_digit, hih]
        have hpad : step3Row (t :: r') = t ++ ',' :: ',' :: step3Row r' := by
          rw [step3Row, paddedRow_cons, if_pos hq]
          rw [show ([t, ([] : Str)] ++ paddedRow r') = t :: ([] : Str) :: paddedRow r' from rfl,
            joinCommas_cons, if_neg (by simp), joinCommas_cons, if_neg hpadne]
          rfl
        rw [hpad]
        simp

/-- The step-3 scanner over a whole encoded table. -/
theorem addCommas_table : ∀ rows : List (List Str), rows ≠ [] →
    (∀ r ∈ rows, r ≠ []) → (∀ r ∈ rows, ∀ t ∈ r, isScheduleToken t = true) →
    addCommasAfterTimes (encodeTable rows) = joinLines (rows.map step3Row) := by
  intro rows
  induction rows with
  | nil => intro hne; exact absurd rfl hne
  | cons r rows' ih =>
    intro _ hne htok
    have hr : r ≠ [] := hne r (List.mem_cons_self _ _)
    have hrtok := htok r (List.mem_cons_self _ _)
    by_cases h' : rows' = []
    · subst h'
      rw [show encodeTable [r] = joinCommas r from by
        simp [encodeTable, joinLines, List.intercalate]]
      rw [show joinCommas r = joinCommas r ++ [] from by simp,
        addCommas_row [] r hr hrtok]
      simp [joinLines, List.intercalate]
      rfl
    · rw [show encodeTable (r :: rows') = joinCommas r ++ '\n' :: encodeTable rows' from by
        rw [encodeTable, List.map_cons, joinLines_cons, if_neg (by simp [h'])]; rfl]
      rw [addCommas_row ('\n' :: encodeTable rows') r hr hrtok,
        addCommas_cons_nondigit newline_not_digit,
        ih h' (fun y hy => hne y (List.mem_cons_of_mem _ hy))
          (fun y hy => htok y (List.mem_cons_of_mem _ hy)),
        List.map_cons, joinLines_cons, if_neg (by simp [h'])]

theorem mem_paddedRow {cell : Str} {r : List Str} (h : cell ∈ paddedRow r) :
    cell = [] ∨ cell ∈ r := by
  unfold paddedRow at h
  rcases List.mem_flatMap.mp h with ⟨t, ht, hcell⟩
  by_cases hq : isQualTime t = true
  · rw [if_pos hq] at hcell
    simp only [List.mem_cons, List.not_mem_nil, or_false] at hcell
    rcases hcell with rfl | rfl
    · exact Or.inr ht
    · exact Or.inl rfl
  · rw [if_neg hq] at hcell
    rcases List.mem_singleton.mp hcell with rfl
    exact Or.inr ht

theorem step3Row_chars {r : List Str} (htok : ∀ t ∈ r, isScheduleToken t = true) :
    ∀ c ∈ step3Row r, c = ',' ∨ goodChar c = true := by
  intro c hc
  rcases mem_joinCommas hc with rfl | ⟨cell, hcell, hccell⟩
  · exact Or.inl rfl
  · rcases mem_paddedRow hcell with rfl | hcellr
    · exact absurd hccell (List.not_mem_nil c)
    · exact Or.inr (token_chars (htok cell hcellr) c hccell)

theorem step3Row_ne_nil {r : List Str} (hr : r ≠ [])
    (htok : ∀ t ∈ r, isScheduleToken t = true) : step3Row r ≠ [] := by
  match r with
  | t :: r' =>
    have ht := token_ne_nil (htok t (List.mem_cons_self _ _))
    rw [step3Row, paddedRow_cons]
    by_cases hq : isQualTime t = true
    · rw [if_pos hq, show ([t, ([] : Str)] ++ paddedRow r') = t :: ([] : Str) :: paddedRow r'
        from rfl, joinCommas_cons, if_neg (by simp)]
      simp [ht]
    · rw [if_neg hq, List.singleton_append, joinCommas_cons]
      by_cases hp : paddedRow r' = []
      · rw [if_pos hp]; exact ht
      · rw [if_neg hp]; simp [ht]

theorem pyStrip_step3Row {r : List Str} (htok : ∀ t ∈ r, isScheduleToken t = true) :
    pyStrip (step3Row r) = step3Row r := by
  refine pyStrip_noop (fun c hc => ?_)
  rcases step3Row_chars htok c hc with rfl | hg
  · decide
  · exact (goodChar_facts hg).1

theorem newline_not_mem_step3Row {r : List Str}
    (htok : ∀ t ∈ r, isScheduleToken t = true) : '\n' ∉ step3Row r := by
  intro hmem
  rcases step3Row_chars htok '\n' hmem with h | hg
  · exact absurd h (by decide)
  · exact absurd (goodChar_facts hg).2.2.1 (by simp)

theorem keepLine_step3Row {r : List Str} (htok : ∀ t ∈ r, isScheduleToken t = true) :
    keepLine (step3Row r) = true := by
  unfold keepLine
  by_cases hs : (pyStrip (step3Row r) == []) = true
  · rw [if_pos hs]
  · rw [if_neg hs]
    have : (step3Row r).filter (fun c => !allowedFilterChar c) = [] := by
      rw [List.filter_eq_nil_iff]
      intro c hc
      rcases step3Row_chars htok c hc with rfl | hg
      · decide
      · simp [(goodChar_facts hg).2.1]
    rw [this]
    rfl

/-- Step 4 keeps every line of a step-3 table. -/
theorem filter_valid_step3 {rows : List (List Str)} (hrows : rows ≠ [])
    (hne : ∀ r ∈ rows, r ≠ [])
    (htok : ∀ r ∈ rows, ∀ t ∈ r, isScheduleToken t = true) :
    filter_valid_lines (joinLines (rows.map step3Row)) = joinLines (rows.map step3Row) := by
  unfold filter_valid_lines
  rw [splitLines_joinLines (by
      intro l hl
      rcases List.mem_map.mp hl with ⟨r, hr, rfl⟩
      exact newline_not_mem_step3Row (htok r hr))
    (by simp [hrows]),
    List.filter_eq_self.mpr (by
      intro l hl
      rcases List.mem_map.mp hl with ⟨r, hr, rfl⟩
      exact keepLine_step3Row (htok r hr))]

theorem take_six_closed_head {cs : Str} (h : cs.take 6 = closedTok) :
    ∃ cs', cs = 'C' :: cs' := by
  cases cs with
  | nil => exact absurd h (by decide)
  | cons d l =>
    have ht : (d :: l).take 6 = d :: l.take 5 := rfl
    rw [ht, show closedTok = ['C', 'L', 'O', 'S', 'E', 'D'] from rfl] at h
    injection h with h1 h2
    exact ⟨l, by rw [h1]⟩

/-- A single safe scanner step of `_fix_closed_formatting`. -/
theorem fixClosed_step {c : Char} {cs : Str}
    (h : c = ',' ∨ ∀ (d : Char) (l : Str), cs = d :: l → d ≠ 'C') :
    fixClosedLine (c :: cs) = c :: fixClosedLine cs := by
  have hcond : (!(c == ',') && cs.take 6 == closedTok) = false := by
    rcases h with rfl | h
    · simp
    · by_cases ht : cs.take 6 = closedTok
      · obtain ⟨cs', rfl⟩ := take_six_closed_head ht
        exact absurd rfl (h 'C' cs' rfl)
      · simp [ht]
  unfold fixClosedLine
  simp only [List.length_cons, fixClosedGo, hcond]
  simp

theorem fixClosed_skip_tail : ∀ p : Str, (∀ c ∈ p.drop 1, c ≠ 'C') →
    ∀ rest : Str, (∀ (d : Char) (l : Str), rest = d :: l → d ≠ 'C') →
    fixClosedLine (p ++ rest) = p ++ fixClosedLine rest := by
  intro p
  induction p with
  | nil => intro _ rest _; simp
  | cons c p' ih =>
    intro hp rest hrest
    rw [List.cons_append, fixClosed_step (Or.inr (by
      intro d l hdl hd
      cases p' with
      | nil =>
        rw [List.nil_append] at hdl
        exact hrest d l hdl hd
      | cons e p'' =>
        rw [List.cons_append] at hdl
        injection hdl with h1 h2
        subst h1
        exact hp e (by simp) hd))]
    rw [ih (fun y hy => hp y (by
        cases p' with
        | nil => exact absurd hy (List.not_mem_nil y)
        | cons e p'' => exact List.mem_cons_of_mem _ (by simpa using hy)))
      rest hrest]
    rfl

theorem fixClosed_cells : ∀ cells : List Str, cells ≠ [] →
    (∀ cell ∈ cells, ∀ c ∈ cell.drop 1, c ≠ 'C') →
    fixClosedLine (joinCommas cells) = joinCommas cells := by
  intro cells
  induction cells with
  | nil => intro hne; exact absurd rfl hne
  | cons cell cells' ih =>
    intro _ hcells
    have hc1 := hcells cell (List.mem_cons_self _ _)
    by_cases h' : cells' = []
    · subst h'
      rw [joinCommas_cons, if_pos rfl]
      have := fixClosed_skip_tail cell hc1 [] (by intro d l hdl; cases hdl)
      rw [List.append_nil] at this
      rw [this]
      simp [fixClosedLine, fixClosedGo]
    · rw [joinCommas_cons, if_neg h']
      rw [show (cell ++ ',' :: joinCommas cells') = cell ++ (',' :: joinCommas cells')
        from rfl]
      rw [fixClosed_skip_tail cell hc1 (',' :: joinCommas cells')
        (by intro d l hdl hd; injection hdl with h1 h2; subst h1; exact absurd hd (by decide)),
        fixClosed_step (Or.inl rfl),
        ih h' (fun y hy => hcells y (List.mem_cons_of_mem _ hy))]

theorem qual_chars_tight {t : Str} (h : isQualTime t = true) :
    ∀ c ∈ t, c.isDigit = true ∨ c = ':' ∨ c = 'A' ∨ c = 'P' := by
  intro c hc
  unfold isQualTime at h
  split at h
  · rename_i a cc m1 m2 x
    simp only [Bool.and_eq_true, Bool.or_eq_true, beq_iff_eq] at h
    obtain ⟨⟨⟨⟨ha, hcc⟩, hm1⟩, hm2⟩, hx⟩ := h
    simp only [List.mem_cons, List.not_mem_nil, or_false] at hc
    rcases hc with rfl | rfl | rfl | rfl | rfl
    · exact Or.inl ha
    · exact Or.inr (Or.inl hcc)
    · exact Or.inl hm1
    · exact Or.inl hm2
    · rcases hx with rfl | rfl
      · exact Or.inr (Or.inr (Or.inl rfl))
      · exact Or.inr (Or.inr (Or.inr rfl))
  · rename_i a b cc m1 m2 x
    simp only [Bool.and_eq_true, Bool.or_eq_true, beq_iff_eq] at h
    obtain ⟨⟨⟨⟨⟨ha, hb⟩, hcc⟩, hm1⟩, hm2⟩, hx⟩ := h
    simp only [List.mem_cons, List.not_mem_nil, or_false] at hc
    rcases hc with rfl | rfl | rfl | rfl | rfl | rfl
    · exact Or.inl ha
    · exact Or.inl hb
    · exact Or.inr (Or.inl hcc)
    · exact Or.inl hm1
    · exact Or.inl hm2
    · rcases hx with rfl | rfl
      · exact Or.inr (Or.inr (Or.inl rfl))
      · exact Or.inr (Or.inr (Or.inr rfl))
  · exact absurd h (by simp)

theorem token_drop_one_no_C {t : Str} (h : isScheduleToken t = true) :
    ∀ c ∈ t.drop 1, c ≠ 'C' := by
  rcases token_cases h with rfl | hq
  · intro c hc
    rw [show closedTok.drop 1 = ['L', 'O', 'S', 'E', 'D'] from rfl] at hc
    simp only [List.mem_cons, List.not_mem_nil, or_false] at hc
    rcases hc with rfl | rfl | rfl | rfl | rfl <;> decide
  · intro c hc hceq
    subst hceq
    rcases qual_chars_tight hq 'C' (List.mem_of_mem_drop hc) with hg | hg | hg | hg
    · exact absurd hg (by decide)
    · exact absurd hg (by decide)
    · exact absurd hg (by decide)
    · exact absurd hg (by decide)

theorem fixClosed_step3Row {r : List Str} (hr : r ≠ [])
    (htokr : ∀ t ∈ r, isScheduleToken t = true) :
    fixClosedLine (step3Row r) = step3Row r := by
  refine fixClosed_cells (paddedRow r) (paddedRow_ne_nil hr) (fun cell hcell => ?_)
  rcases mem_paddedRow hcell with rfl | hcr
  · intro c hc
    exact absurd hc (by simp)
  · exact token_drop_one_no_C (htokr cell hcr)

/-- Step 5 leaves every line of a step-3 table unchanged. -/
theorem fix_closed_step3 {rows : List (List Str)} (hrows : rows ≠ [])
    (hne : ∀ r ∈ rows, r ≠ [])
    (htok : ∀ r ∈ rows, ∀ t ∈ r, isScheduleToken t = true) :
    fix_closed_formatting (joinLines (rows.map step3Row)) = joinLines (rows.map step3Row) := by
  unfold fix_closed_formatting
  rw [splitLines_joinLines (by
      intro l hl
      rcases List.mem_map.mp hl with ⟨r, hr, rfl⟩
      exact newline_not_mem_step3Row (htok r hr))
    (by simp [hrows])]
  congr 1
  rw [show (rows.map step3Row).map fixClosedLine = (rows.map step3Row).map id from
    List.map_congr_left (fun l hl => by
      rcases List.mem_map.mp hl with ⟨r, hr, rfl⟩
      exact fixClosed_step3Row (hne r hr) (htok r hr)), List.map_id]

theorem qual_not_bare {t : Str} (h : isQualTime t = true) : isBareTime t = false := by
  unfold isQualTime at h
  split at h
  · rename_i a cc m1 m2 x
    simp only [Bool.and_eq_true, Bool.or_eq_true, beq_iff_eq] at h
    obtain ⟨⟨⟨⟨ha, hcc⟩, hm1⟩, hm2⟩, hx⟩ := h
    subst hcc
    simp [isBareTime, colon_not_digit]
  · rename_i a b cc m1 m2 x
    simp [isBareTime]
  · rename_i hne1
    exact absurd h (by simp)

theorem fixMissingGo_noop {cols : List Str}
    (H : ∀ col ∈ cols, (pyStrip col == []) = true ∨ (pyStrip col == closedTok) = true ∨
      (pyStrip col = col ∧ isBareTime col = false)) :
    ∀ n i : Nat, fixMissingGo n cols i = cols := by
  intro n
  induction n with
  | zero => intro i; rfl
  | succ m ih =>
    intro i
    simp only [fixMissingGo]
    by_cases h1 : (pyStrip (cols.getD i []) == [] || pyStrip (cols.getD i []) == closedTok) = true
    · rw [if_pos h1]
      exact ih (i + 1)
    · rw [if_neg h1]
      have hb : isBareTime (pyStrip (cols.getD i [])) = false := by
        by_cases hlt : i < cols.length
        · rw [getD_eq_getElem_of_lt hlt] at h1 ⊢
          rcases H cols[i] (List.getElem_mem hlt) with h | h | ⟨hs, hbt⟩
          · exact absurd (by simp [h]) h1
          · exact absurd (by simp [h]) h1
          · rw [hs]; exact hbt
        · rw [List.getD_eq_default _ _ (by omega)] at h1
          exact absurd (by decide) h1
      rw [if_neg (by simpa using hb)]
      exact ih (i + 1)

theorem comma_not_mem_paddedRow {r : List Str}
    (htokr : ∀ t ∈ r, isScheduleToken t = true) :
    ∀ cell ∈ paddedRow r, ',' ∉ cell := by
  intro cell hcell hmem
  rcases mem_paddedRow hcell with rfl | hcr
  · exact absurd hmem (List.not_mem_nil _)
  · exact absurd (token_chars (htokr cell hcr) ',' hmem) (by decide)

theorem splitCommas_step3Row {r : List Str} (hr : r ≠ [])
    (htokr : ∀ t ∈ r, isScheduleToken t = true) :
    splitCommas (step3Row r) = paddedRow r :=
  splitCommas_joinCommas (comma_not_mem_paddedRow htokr) (paddedRow_ne_nil hr)

theorem fixMissingLine_step3Row {r : List Str} (hr : r ≠ [])
    (htokr : ∀ t ∈ r, isScheduleToken t = true) :
    fixMissingLine (step3Row r) = step3Row r := by
  unfold fixMissingLine
  by_cases hs : (pyStrip (step3Row r) == []) = true
  · rw [if_pos hs]
  · rw [if_neg hs, splitCommas_step3Row hr htokr,
      fixMissingGo_noop (fun col hcol => by
        rcases mem_paddedRow hcol with rfl | hcr
        · exact Or.inl (by rfl)
        · rcases token_cases (htokr col hcr) with rfl | hq
          · exact Or.inr (Or.inl (by decide))
          · exact Or.inr (Or.inr
              ⟨pyStrip_noop (fun c hc => (goodChar_facts (qual_chars hq c hc)).1),
                qual_not_bare hq⟩))]
    rfl

/-- Step 6 leaves every line of a step-3 table unchanged. -/
theorem fix_missing_step3 {rows : List (List Str)} (hrows : rows ≠ [])
    (hne : ∀ r ∈ rows, r ≠ [])
    (htok : ∀ r ∈ rows, ∀ t ∈ r, isScheduleToken t = true) :
    fix_missing_am_pm (joinLines (rows.map step3Row)) = joinLines (rows.map step3Row) := by
  unfold fix_missing_am_pm
  rw [splitLines_joinLines (by
      intro l hl
      rcases List.mem_map.mp hl with ⟨r, hr, rfl⟩
      exact newline_not_mem_step3Row (htok r hr))
    (by simp [hrows])]
  congr 1
  rw [show (rows.map step3Row).map fixMissingLine = (rows.map step3Row).map id from
    List.map_congr_left (fun l hl => by
      rcases List.mem_map.mp hl with ⟨r, hr, rfl⟩
      exact fixMissingLine_step3Row (hne r hr) (htok r hr)), List.map_id]

theorem filter_paddedRow : ∀ r : List Str, (∀ t ∈ r, isScheduleToken t = true) →
    (paddedRow r).filter (fun c => !(c == [])) = r := by
  intro r
  induction r with
  | nil => intro _; rfl
  | cons t r' ih =>
    intro htokr
    have ht := token_ne_nil (htokr t (List.mem_cons_self _ _))
    rw [paddedRow_cons, List.filter_append,
      ih (fun y hy => htokr y (List.mem_cons_of_mem _ hy))]
    by_cases hq : isQualTime t = true
    · rw [if_pos hq]
      simp [ht]
    · rw [if_neg hq]
      simp [ht]

/-- Step 7 re-chunks a step-3 table back into its original rows. -/
theorem norm14_encoded : ∀ rows : List (List Str),
    (∀ r ∈ rows, r ≠ []) → (∀ r ∈ rows, r.length ≤ 14) →
    (∀ r ∈ rows, ∀ t ∈ r, isScheduleToken t = true) →
    (∀ r ∈ rows.dropLast, r.length = 14) →
    norm14Go (rows.map step3Row) [] = rows := by
  intro rows
  induction rows with
  | nil => intro _ _ _ _; rfl
  | cons r rows' ih =>
    intro hne hlen htok hdrop
    have hr : r ≠ [] := hne r (List.mem_cons_self _ _)
    have hrtok := htok r (List.mem_cons_self _ _)
    have hne14 : (step3Row r == []) = false := by
      simp [step3Row_ne_nil hr hrtok]
    rw [List.map_cons]
    simp only [norm14Go, pyStrip_step3Row hrtok, hne14, Bool.false_eq_true, if_false,
      splitCommas_step3Row hr hrtok, filter_paddedRow r hrtok, List.nil_append]
    by_cases h' : rows' = []
    · subst h'
      by_cases h14 : r.length = 14
      · rw [if_pos (by omega), show r.take 14 = r from by rw [← h14, List.take_length],
          show r.drop 14 = [] from by rw [← h14, List.drop_length]]
        rfl
      · have hlt : r.length < 14 := lt_of_le_of_ne (hlen r (List.mem_cons_self _ _)) h14
        rw [if_neg (by omega)]
        simp only [List.map_nil, norm14Go]
        rw [if_neg (by simpa using hr)]
    · obtain ⟨y, l, rfl⟩ : ∃ y l, rows' = y :: l := by
        cases rows' with
        | nil => exact absurd rfl h'
        | cons y l => exact ⟨y, l, rfl⟩
      have h14 : r.length = 14 := hdrop r (by
        rw [List.dropLast_cons₂]
        exact List.mem_cons_self _ _)
      rw [if_pos (by omega), show r.take 14 = r from by rw [← h14, List.take_length],
        show r.drop 14 = [] from by rw [← h14, List.drop_length],
        ih (fun y' hy' => hne y' (List.mem_cons_of_mem _ hy'))
          (fun y' hy' => hlen y' (List.mem_cons_of_mem _ hy'))
          (fun y' hy' => htok y' (List.mem_cons_of_mem _ hy'))
          (fun y' hy' => hdrop y' (by rw [List.dropLast_cons₂]; exact List.mem_cons_of_mem _ hy'))]

theorem norm14_step3 {rows : List (List Str)} (hrows : rows ≠ [])
    (hne : ∀ r ∈ rows, r ≠ []) (hlen : ∀ r ∈ rows, r.length ≤ 14)
    (htok : ∀ r ∈ rows, ∀ t ∈ r, isScheduleToken t = true)
    (hdrop : ∀ r ∈ rows.dropLast, r.length = 14) :
    normalize_to_14_columns (joinLines (rows.map step3Row)) = encodeTable rows := by
  unfold normalize_to_14_columns
  rw [splitLines_joinLines (by
      intro l hl
      rcases List.mem_map.mp hl with ⟨r, hr, rfl⟩
      exact newline_not_mem_step3Row (htok r hr))
    (by simp [hrows]),
    norm14_encoded rows hne hlen htok hdrop]
  rfl

/-- C6 (counterexample): the Text Normalizer is not idempotent.  On a
single raw line of 29 concatenated times, the first run emits rows of 14
and 15 fields; feeding that output back re-chunks the 29 tokens across
the two-line layout into rows of 14, 14 and 1 fields, so the second run
changes the text. -/
theorem C6_counterexample :
    process_text (process_text row29Input) ≠ process_text row29Input := by
  decide

/-- C6 (amended): idempotence fails in general (see the counterexample),
but it holds whenever the first run's output is a well-formed table: a
nonempty list of rows, each a nonempty list of at most 14 tokens with
every non-final row exactly 14 tokens long, every token either `CLOSED`
or a fully qualified time `H:MM` followed by `A` or `P` — the claim's
"only fully qualified times, CLOSED tokens, and comma separators with no
bare glyphs", plus the row-length discipline the first run fails to
guarantee.  On such outputs the second run is the identity, so
`process_text (process_text s) = process_text s`. -/
theorem C6_amended (s : Str) (rows : List (List Str))
    (hout : process_text s = encodeTable rows)
    (hrows : rows ≠ [])
    (hne : ∀ r ∈ rows, r ≠ [])
    (hlen : ∀ r ∈ rows, r.length ≤ 14)
    (hdrop : ∀ r ∈ rows.dropLast, r.length = 14)
    (htok : ∀ r ∈ rows, ∀ t ∈ r, isScheduleToken t = true) :
    process_text (process_text s) = process_text s := by
  rw [hout]
  have hchars := encodeTable_chars htok
  unfold process_text
  rw [replaceSpecialChars_noop (fun c hc => by
      rcases hchars c hc with rfl | rfl | hg
      · exact ⟨by decide, by decide⟩
      · exact ⟨by decide, by decide⟩
      · exact ⟨(goodChar_facts hg).2.2.2.2.1, (goodChar_facts hg).2.2.2.2.2.1⟩),
    removeWhitespace_noop (fun c hc => by
      rcases hchars c hc with rfl | rfl | hg
      · exact ⟨by decide, by decide⟩
      · exact ⟨by decide, by decide⟩
      · exact ⟨(goodChar_facts hg).2.2.2.2.2.2.1, (goodChar_facts hg).2.2.2.2.2.2.2⟩),
    addCommas_table rows hrows hne htok,
    filter_valid_step3 hrows hne htok,
    fix_closed_step3 hrows hne htok,
    fix_missing_step3 hrows hne htok,
    norm14_step3 hrows hne hlen htok hdrop]

/-- Witness for `C6_amended`: the raw text `6:15A CLOSED` normalizes to
the one-row table `6:15A,CLOSED`, and a second run leaves it unchanged. -/
theorem C6_amended_witness :
    process_text (process_text ("6:15A CLOSED".toList)) =
      process_text ("6:15A CLOSED".toList) :=
  C6_amended ("6:15A CLOSED".toList) [["6:15A".toList, closedTok]]
    (by decide) (by decide) (by decide) (by decide) (by decide) (by decide)

end Patco
